import Mathlib

/-
Verification of the kitty-doom terminal I/O pipeline.

Shallow embedding of three components of the C source:
  - the palette converter (src/palette.c, src/arch/neon-palette.h),
  - the input parser / escape-sequence state machine (src/input.c),
  - the Kitty graphics protocol encoder (src/render.c).

Modelling conventions:
  - machine bytes are Nat values < 256 (the target platform is aarch64,
    where the C char type is unsigned, so bytes parsed from the terminal
    are 0..255);
  - byte buffers are functions Nat -> Nat or Nat -> Fin 256, or List Nat;
  - the CLOCK_MONOTONIC timestamps are modelled at millisecond
    granularity as Nat, since every release deadline in the source is
    created as now + delay_ms and compared at millisecond scale;
  - calls into the external engine (doom_key_down, doom_key_up,
    doom_mouse_move) are recorded as an ordered event list;
  - the capacity-bounded scheduling of key releases additionally
    reports a ghost Bool that is true when sched_key_release silently
    dropped a new entry because the 16-entry list was full.  This flag
    is observation only: it does not alter any modelled behavior.
-/

/- ===================== Palette converter ===================== -/

/-- Red channel cache built by palette_init_neon / palette_init_scalar:
entry i holds palette[i * 3 + 0]. -/
def palette_r_init (palette : Nat → Nat) : Fin 256 → Nat :=
  fun i => palette (i.val * 3 + 0)

/-- Green channel cache: entry i holds palette[i * 3 + 1]. -/
def palette_g_init (palette : Nat → Nat) : Fin 256 → Nat :=
  fun i => palette (i.val * 3 + 1)

/-- Blue channel cache: entry i holds palette[i * 3 + 2]. -/
def palette_b_init (palette : Nat → Nat) : Fin 256 → Nat :=
  fun i => palette (i.val * 3 + 2)

/-- Scalar conversion loop of palette_to_rgb24_scalar (src/palette.c):
for i in [0, npixels), emit the three cached channel bytes of pixel i.
The list is built in loop order, output position 3*i+k holding channel k
of pixel i. -/
def palette_to_rgb24_scalar (pr pg pb : Fin 256 → Nat) (indexed : Nat → Fin 256) :
    Nat → List Nat
  | 0 => []
  | n + 1 =>
    palette_to_rgb24_scalar pr pg pb indexed n ++
      [pr (indexed n), pg (indexed n), pb (indexed n)]

/-- Scalar gather of one 8-pixel batch (the inner j-loop of
palette_to_rgb24_neon_impl): channel values of pixels base..base+7. -/
def gather8 (chan : Fin 256 → Nat) (indexed : Nat → Fin 256) (base : Nat) : List Nat :=
  (List.range 8).map (fun j => chan (indexed (base + j)))

/-- Interleaved store vst3_u8: merge the three channel registers into
r0 g0 b0 r1 g1 b1 ... byte order. -/
def vst3_u8 : List Nat → List Nat → List Nat → List Nat
  | r :: rs, g :: gs, b :: bs => r :: g :: b :: vst3_u8 rs gs bs
  | _, _, _ => []

/-- SIMD portion of palette_to_rgb24_neon_impl: nblocks iterations, each
converting 8 pixels by scalar gather followed by an interleaved store.
Block b covers pixels b*8 .. b*8+7. -/
def neon_blocks (pr pg pb : Fin 256 → Nat) (indexed : Nat → Fin 256) :
    Nat → List Nat
  | 0 => []
  | b + 1 =>
    neon_blocks pr pg pb indexed b ++
      vst3_u8 (gather8 pr indexed (b * 8)) (gather8 pg indexed (b * 8))
        (gather8 pb indexed (b * 8))

/-- Scalar remainder loop of palette_to_rgb24_neon_impl: cnt pixels
starting at pixel index start. -/
def neon_tail (pr pg pb : Fin 256 → Nat) (indexed : Nat → Fin 256) (start : Nat) :
    Nat → List Nat
  | 0 => []
  | c + 1 =>
    neon_tail pr pg pb indexed start c ++
      [pr (indexed (start + c)), pg (indexed (start + c)), pb (indexed (start + c))]

/-- NEON conversion (src/arch/neon-palette.h, palette_to_rgb24_neon_impl):
simd_pixels = (npixels / 8) * 8 pixels in 8-pixel batches, then the
remaining npixels - simd_pixels pixels with scalar code. -/
def palette_to_rgb24_neon_impl (pr pg pb : Fin 256 → Nat) (indexed : Nat → Fin 256)
    (npixels : Nat) : List Nat :=
  neon_blocks pr pg pb indexed (npixels / 8) ++
    neon_tail pr pg pb indexed (npixels / 8 * 8) (npixels - npixels / 8 * 8)

/-- Public entry palette_to_rgb24 (src/palette.c) on the ARM path: cache
the palette into the three channel arrays, then run the NEON conversion. -/
def palette_to_rgb24 (indexed : Nat → Fin 256) (palette : Nat → Nat)
    (npixels : Nat) : List Nat :=
  palette_to_rgb24_neon_impl (palette_r_init palette) (palette_g_init palette)
    (palette_b_init palette) indexed npixels

/-- Channel selector used to state the conversion contract: channel 0 is
red, 1 green, 2 blue. -/
def palette_chan (pr pg pb : Fin 256 → Nat) (k : Nat) (i : Fin 256) : Nat :=
  match k with
  | 0 => pr i
  | 1 => pg i
  | _ => pb i

/- ===================== Input subsystem: data model ===================== -/

/-- Calls the input parser makes into the external engine API
(doom_key_down, doom_key_up, doom_mouse_move). -/
inductive EngineCall where
  | keyDown (key : Nat)
  | keyUp (key : Nat)
  | mouseMove (dx dy : Int)
deriving DecidableEq, Repr

/-- Parser mode of the escape-sequence state machine (parser_state_t). -/
inductive ParserMode where
  | ground
  | esc
  | ss3
  | csi
deriving DecidableEq, Repr

/-- Pending key release entry: key code and absolute release deadline
(milliseconds of CLOCK_MONOTONIC). -/
abbrev PendingList := List (Nat × Nat)

/-- Keys of a pending-release list, in list order. -/
def KeysOf (p : PendingList) : List Nat := p.map Prod.fst

/-- Mouse state tracking for relative movement (mouse_state_t). -/
structure MouseState where
  last_x : Int
  last_y : Int
  tracking : Bool
  btn_left : Bool
  btn_middle : Bool
  btn_right : Bool
deriving DecidableEq, Repr

/-- The buttons[b] array read, b in 0..2 = left, middle, right. -/
def mouse_button (m : MouseState) (b : Nat) : Bool :=
  if b = 0 then m.btn_left
  else if b = 1 then m.btn_middle
  else if b = 2 then m.btn_right
  else false

/-- The buttons[b] array write. -/
def set_mouse_button (m : MouseState) (b : Nat) (v : Bool) : MouseState :=
  if b = 0 then {m with btn_left := v}
  else if b = 1 then {m with btn_middle := v}
  else if b = 2 then {m with btn_right := v}
  else m

/-- State of struct input owned by the input thread (src/input.c),
omitting the pthread plumbing and the thread-loop locals:
held is the 256-bit held_keys_bitmap viewed as a predicate on key codes. -/
structure InputState where
  pstate : ParserMode
  parms : List Nat
  parm : Nat
  parm_lead : Nat
  device_attributes : Option (List Nat)
  has_cell_size : Bool
  cell_size : Nat × Nat
  has_cursor_pos : Bool
  cursor_pos : Nat × Nat
  pending : PendingList
  held : Nat → Bool
  exit_requested : Bool
  mouse : MouseState

/-- Initial state built by input_create: GROUND, empty pending list,
all-zero bitmap, zeroed mouse state. -/
def initInput : InputState where
  pstate := ParserMode.ground
  parms := []
  parm := 0
  parm_lead := 0
  device_attributes := none
  has_cell_size := false
  cell_size := (0, 0)
  has_cursor_pos := false
  cursor_pos := (0, 0)
  pending := []
  held := fun _ => false
  exit_requested := false
  mouse := { last_x := 0, last_y := 0, tracking := false,
             btn_left := false, btn_middle := false, btn_right := false }

/-- mark_key_held: set the key's bit, guarded by 0 <= key < 256
(MAX_KEY_CODE). -/
def markKeyHeld (h : Nat → Bool) (key : Nat) : Nat → Bool :=
  if key < 256 then fun j => if j = key then true else h j else h

/-- mark_key_released: clear the key's bit, same range guard. -/
def markKeyReleased (h : Nat → Bool) (key : Nat) : Nat → Bool :=
  if key < 256 then fun j => if j = key then false else h j else h

/-- is_key_held: read the key's bit; out-of-range keys read as not held. -/
def isKeyHeld (h : Nat → Bool) (key : Nat) : Bool :=
  if key < 256 then h key else false

/-- The engine-side view of key state reconstructed from the emitted
calls: keyDown sets a key, keyUp clears it, motion is ignored. -/
def engSet (eng : Nat → Bool) (k : Nat) (b : Bool) : Nat → Bool :=
  fun j => if j = k then b else eng j

/-- Replay a list of engine calls over an engine key-state view. -/
def applyEvents (eng : Nat → Bool) : List EngineCall → (Nat → Bool)
  | [] => eng
  | EngineCall.keyDown k :: rest => applyEvents (engSet eng k true) rest
  | EngineCall.keyUp k :: rest => applyEvents (engSet eng k false) rest
  | EngineCall.mouseMove _ _ :: rest => applyEvents eng rest

/- ===================== Release scheduling ===================== -/

/-- In-place deadline update pass of sched_key_release: the first entry
whose key matches gets the new release time; none if no entry matches. -/
def sched_update (key rt : Nat) : PendingList → Option PendingList
  | [] => none
  | e :: rest =>
    if e.1 = key then some ((key, rt) :: rest)
    else
      match sched_update key rt rest with
      | none => none
      | some r => some (e :: r)

/-- Result of sched_key_release.  The dropped flag is ghost
instrumentation: true exactly when the key was new and the 16-entry list
was full, so the source silently did nothing. -/
structure SchedResult where
  pending : PendingList
  held : Nat → Bool
  dropped : Bool

/-- sched_key_release (src/input.c): compute release_time = now + delay;
update the key's entry in place if present, else append a new entry and
mark the key held, provided the list holds fewer than
MAX_PENDING_RELEASES = 16 entries. -/
def sched_key_release (pending : PendingList) (held : Nat → Bool)
    (key now delay : Nat) : SchedResult :=
  let rt := now + delay
  match sched_update key rt pending with
  | some l => ⟨l, held, false⟩
  | none =>
    if pending.length < 16 then
      ⟨pending ++ [(key, rt)], markKeyHeld held key, false⟩
    else
      ⟨pending, held, true⟩

/-- Sequential scheduling of a list of keys with one shared delay (the
shape of sched_modifier_releases). -/
def sched_keys : List Nat → PendingList → (Nat → Bool) → Nat → Nat → SchedResult
  | [], p, h, _, _ => ⟨p, h, false⟩
  | k :: ks, p, h, now, delay =>
    let r := sched_key_release p h k now delay
    let r2 := sched_keys ks r.pending r.held now delay
    ⟨r2.pending, r2.held, r.dropped || r2.dropped⟩

/-- Modifier keys selected by a CSI modifier parameter (for_each_modifier
and sched_modifier_releases share this decoding): parameter values >= 2
encode a mask of Shift (182), Alt (184), Ctrl (157) in bits 0..2 of
modifiers - 1. -/
def modifierKeys (modifiers : Nat) : List Nat :=
  if 2 ≤ modifiers then
    let mask := modifiers - 1
    (if mask % 2 = 1 then [182] else []) ++
      (if mask / 2 % 2 = 1 then [184] else []) ++
        (if mask / 4 % 2 = 1 then [157] else [])
  else []

/-- process_pending_releases inner loop over (pending, held): entries are
visited from the last index toward the first; an entry whose deadline has
passed (now >= release_time) sends key_up, clears the bitmap bit and is
removed. -/
def processPR (now : Nat) : PendingList → (Nat → Bool) →
    PendingList × (Nat → Bool) × List EngineCall
  | [], h => ([], h, [])
  | e :: rest, h =>
    let r := processPR now rest h
    if e.2 ≤ now then
      (r.1, markKeyReleased r.2.1 e.1, r.2.2 ++ [EngineCall.keyUp e.1])
    else
      (e :: r.1, r.2.1, r.2.2)

/-- process_pending_releases on the full input state. -/
def process_pending (s : InputState) (now : Nat) : InputState × List EngineCall :=
  let r := processPR now s.pending s.held
  ({s with pending := r.1, held := r.2.1}, r.2.2)

/- ===================== Key dispatch ===================== -/

/-- Key code mapping of ascii_key: CR and LF map to the engine Enter key
(13); Space, F, I in either case are remapped to the primary fire action,
the engine Ctrl key (157).  Key code values follow the external engine's
published key enumeration. -/
def asciiDoomKey (ch : Nat) : Nat :=
  let k := if ch = 13 then 13 else if ch = 10 then 13 else ch
  if ch = 32 ∨ ch = 102 ∨ ch = 70 ∨ ch = 105 ∨ ch = 73 then 157 else k

/-- ascii_key (src/input.c): send key_down only if the key is not already
held, then schedule (or extend) a 50 ms auto-release. -/
def ascii_key (s : InputState) (ch now : Nat) : InputState × List EngineCall × Bool :=
  let k := asciiDoomKey ch
  let evs := if isKeyHeld s.held k then [] else [EngineCall.keyDown k]
  let r := sched_key_release s.pending s.held k now 50
  ({s with pending := r.pending, held := r.held}, evs, r.dropped)

/-- SS3 terminator mapping: P Q R S are F1..F4 (codes 187..190); anything
else maps to 0 = no key. -/
def ss3DoomKey (ch : Nat) : Nat :=
  if ch = 80 then 187
  else if ch = 81 then 188
  else if ch = 82 then 189
  else if ch = 83 then 190
  else 0

/-- ss3_key (src/input.c): dispatch F1..F4 with a 50 ms hold; unknown
terminators do nothing. -/
def ss3_key (s : InputState) (ch now : Nat) : InputState × List EngineCall × Bool :=
  let k := ss3DoomKey ch
  if k = 0 then (s, [], false)
  else
    let evs := if isKeyHeld s.held k then [] else [EngineCall.keyDown k]
    let r := sched_key_release s.pending s.held k now 50
    ({s with pending := r.pending, held := r.held}, evs, r.dropped)

/-- Function-key half of the CSI terminator mapping of csi_key: with
terminator ~, the first parameter selects F5..F12 (191..196, 215, 216);
anything else maps to 0. -/
def csiTildeKey (parm1 : Nat) : Nat :=
  if parm1 = 15 then 191
  else if parm1 = 17 then 192
  else if parm1 = 18 then 193
  else if parm1 = 19 then 194
  else if parm1 = 20 then 195
  else if parm1 = 21 then 196
  else if parm1 = 23 then 215
  else if parm1 = 24 then 216
  else 0

/-- Arrow-key terminators A B C D map to Up 173, Down 175, Right 174,
Left 172; the tilde terminator consults the first parameter. -/
def csiDoomKey (ch parm1 : Nat) : Nat :=
  if ch = 65 then 173
  else if ch = 66 then 175
  else if ch = 67 then 174
  else if ch = 68 then 172
  else if ch = 126 then csiTildeKey parm1
  else 0

/-- Held-key scan of csi_key: find the first pending entry of the key; if
its release lies more than 25 ms in the future remove it (the caller
sends the immediate key_up), reporting true; otherwise leave the list
unchanged and report false. -/
def csi_check (key now : Nat) : PendingList → PendingList × Bool
  | [] => ([], false)
  | e :: rest =>
    if e.1 = key then
      if 25 < (e.2 : Int) - (now : Int) then (rest, true) else (e :: rest, false)
    else
      let r := csi_check key now rest
      (e :: r.1, r.2)

/-- csi_key (src/input.c): arrow keys hold for 80 ms, other mapped keys
50 ms.  A key event while the key is held whose scheduled release is more
than 25 ms away is a new distinct keypress: immediate key_up, entry
removal, modifier key_downs, fresh key_down; otherwise a held key only
has its release extended.  Modifier releases are scheduled with the same
delay when a key_down was sent. -/
def csi_key (s : InputState) (ch parm1 parm2 now : Nat) :
    InputState × List EngineCall × Bool :=
  let k := csiDoomKey ch parm1
  if k = 0 then (s, [], false)
  else
    let delay := if k = 173 ∨ k = 175 ∨ k = 172 ∨ k = 174 then 80 else 50
    let already_held := isKeyHeld s.held k
    let chk := if already_held then csi_check k now s.pending else (s.pending, false)
    let isNew := chk.2
    let held1 := if isNew then markKeyReleased s.held k else s.held
    let evs1 := if isNew then [EngineCall.keyUp k] else ([] : List EngineCall)
    let evs2 :=
      if !already_held || isNew then
        (modifierKeys parm2).map EngineCall.keyDown ++ [EngineCall.keyDown k]
      else []
    let r := sched_key_release chk.1 held1 k now delay
    let r2 :=
      if !already_held || isNew then
        sched_keys (modifierKeys parm2) r.pending r.held now delay
      else ⟨r.pending, r.held, false⟩
    ({s with pending := r2.pending, held := r2.held}, evs1 ++ evs2,
      r.dropped || r2.dropped)

/-- Clamp one axis delta to plus or minus 100 cells (MAX_DELTA_CLAMP), guarding
against spurious jumps. -/
def clampDelta (d : Int) : Int :=
  if 100 < d then 100 else if d < -100 then -100 else d

/-- parse_mouse_sgr (src/input.c): decode an SGR 1006 mouse report from
the first three accumulated parameters.  Wheel events (bit 6) are
ignored.  The first non-wheel report establishes the reference position
without emitting motion.  Later reports clamp each axis delta to
plus or minus 100 cells, scale by MOUSE_SENSITIVITY = 10, forward motion only when
nonzero, and update the reference only when motion was forwarded.
Non-motion button presses map left/right/middle to fire (157), use (32),
run (182) with a 50 ms scheduled release; releases only clear the
per-button flag. -/
def mouse_buttons_step (s1 : InputState) (cb final now : Nat) :
    InputState × List EngineCall × Bool :=
  let button := cb % 4
  let is_motion := cb / 32 % 2 = 1
  let is_press := final = 77
  if ¬ is_motion ∧ button < 3 then
    if is_press ∧ mouse_button s1.mouse button = false then
      let s2 := {s1 with mouse := set_mouse_button s1.mouse button true}
      let doom_key :=
        if button = 0 then 157 else if button = 2 then 32
        else if button = 1 then 182 else 0
      if doom_key ≠ 0 then
        let r := sched_key_release s2.pending s2.held doom_key now 50
        ({s2 with pending := r.pending, held := r.held},
          [EngineCall.keyDown doom_key], r.dropped)
      else (s2, [], false)
    else if ¬ is_press ∧ mouse_button s1.mouse button = true then
      ({s1 with mouse := set_mouse_button s1.mouse button false}, [], false)
    else (s1, [], false)
  else (s1, [], false)

/-- parse_mouse_sgr continued: after motion handling, non-motion button
presses and releases are processed by mouse_buttons_step above. -/
def parse_mouse_sgr (s : InputState) (final now : Nat) :
    InputState × List EngineCall × Bool :=
  if s.parms.length < 3 then (s, [], false)
  else
    let cb := s.parms.getD 0 0
    let cx := s.parms.getD 1 0
    let cy := s.parms.getD 2 0
    let is_wheel := cb / 64 % 2 = 1
    if is_wheel then (s, [], false)
    else if s.mouse.tracking = false then
      let m1 := {s.mouse with
                  last_x := (cx : Int), last_y := (cy : Int), tracking := true}
      ({s with mouse := m1}, [], false)
    else
      let dx := clampDelta ((cx : Int) - s.mouse.last_x) * 10
      let dy := clampDelta ((cy : Int) - s.mouse.last_y) * 10
      let moved : Bool := dx ≠ 0 ∨ dy ≠ 0
      let s1 :=
        if moved then
          {s with mouse := {s.mouse with last_x := (cx : Int), last_y := (cy : Int)}}
        else s
      let evs1 := if moved then [EngineCall.mouseMove dx dy] else ([] : List EngineCall)
      let b := mouse_buttons_step s1 cb final now
      (b.1, evs1 ++ b.2.1, b.2.2)

/-- parse_char (src/input.c): the escape-sequence state machine.  Byte
0x03 requests exit in any state without touching the parser mode; byte
0x1B enters ESC (first dispatching the previous ESC as a standalone key
when already in ESC); otherwise the current mode decides: GROUND bytes
are literal keys, ESC branches to SS3/CSI or dispatches a standalone ESC
(reprocessing a printable byte), SS3 dispatches F1-F4, and CSI
accumulates prefix, digits and parameters (capacity MAX_PARMS = 32,
extras dropped) until a terminator dispatches the sequence and returns
to GROUND. -/
def parse_char (s : InputState) (ch now : Nat) : InputState × List EngineCall × Bool :=
  if ch = 3 then
    ({s with exit_requested := true}, [], false)
  else if ch = 27 then
    if s.pstate = ParserMode.esc then
      let r := ascii_key s 27 now
      ({r.1 with pstate := ParserMode.esc}, r.2.1, r.2.2)
    else ({s with pstate := ParserMode.esc}, [], false)
  else
    match s.pstate with
    | ParserMode.ground => ascii_key s ch now
    | ParserMode.esc =>
      if ch = 79 then ({s with pstate := ParserMode.ss3}, [], false)
      else if ch = 91 then
        ({s with pstate := ParserMode.csi, parm := 0, parms := [], parm_lead := 0},
          [], false)
      else
        let r := ascii_key s 27 now
        let s1 := {r.1 with pstate := ParserMode.ground}
        if 32 ≤ ch ∧ ch < 127 then
          let r2 := ascii_key s1 ch now
          (r2.1, r.2.1 ++ r2.2.1, r.2.2 || r2.2.2)
        else (s1, r.2.1, r.2.2)
    | ParserMode.ss3 =>
      let r := ss3_key s ch now
      ({r.1 with pstate := ParserMode.ground}, r.2.1, r.2.2)
    | ParserMode.csi =>
      if ch = 63 ∨ ch = 62 ∨ ch = 60 then
        ({s with parm_lead := ch}, [], false)
      else if 48 ≤ ch ∧ ch ≤ 57 then
        ({s with parm := s.parm * 10 + (ch - 48)}, [], false)
      else if ch = 59 then
        let ps := if s.parms.length < 32 then s.parms ++ [s.parm] else s.parms
        ({s with parms := ps, parm := 0}, [], false)
      else
        let ps := if s.parms.length < 32 then s.parms ++ [s.parm] else s.parms
        let s1 := {s with parms := ps}
        if ch = 99 ∧ s1.parm_lead = 63 then
          let s2 := {s1 with device_attributes := some s1.parms, pstate := ParserMode.ground}
          (s2, [], false)
        else if ch = 116 then
          if 3 ≤ s1.parms.length ∧ s1.parms.getD 0 0 = 4 then
            let cs := (s1.parms.getD 1 0, s1.parms.getD 2 0)
            let s2 := {s1 with has_cell_size := true, cell_size := cs, pstate := ParserMode.ground}
            (s2, [], false)
          else ({s1 with pstate := ParserMode.ground}, [], false)
        else if ch = 82 then
          if 2 ≤ s1.parms.length then
            let cp := (s1.parms.getD 0 0, s1.parms.getD 1 0)
            let s2 := {s1 with has_cursor_pos := true, cursor_pos := cp, pstate := ParserMode.ground}
            (s2, [], false)
          else ({s1 with pstate := ParserMode.ground}, [], false)
        else if ch = 77 ∨ ch = 109 then
          if s1.parm_lead = 60 then
            let r := parse_mouse_sgr s1 ch now
            ({r.1 with pstate := ParserMode.ground}, r.2.1, r.2.2)
          else ({s1 with pstate := ParserMode.ground}, [], false)
        else
          let r := csi_key s1 ch (s1.parms.getD 0 0) (s1.parms.getD 1 0) now
          ({r.1 with pstate := ParserMode.ground}, r.2.1, r.2.2)

/-- Fold parse_char over a byte list at a fixed timestamp, accumulating
the engine-side key view. -/
def run_bytes (now : Nat) : InputState → (Nat → Bool) → List Nat →
    InputState × (Nat → Bool)
  | s, eng, [] => (s, eng)
  | s, eng, c :: cs =>
    let r := parse_char s c now
    run_bytes now r.1 (applyEvents eng r.2.1) cs

/-- States reachable from the freshly created input state, paired with
the engine-side key view induced by the emitted calls.  A step is one
parsed input byte, one pass of pending-release processing, or the 100 ms
standalone-ESC timeout of the thread loop (which dispatches a literal ESC
key and returns to GROUND). -/
inductive Reaches : InputState → (Nat → Bool) → Prop where
  | init : Reaches initInput (fun _ => false)
  | parse (s : InputState) (eng : Nat → Bool) (ch now : Nat)
      (h : Reaches s eng) (hch : ch < 256) :
      Reaches (parse_char s ch now).1 (applyEvents eng (parse_char s ch now).2.1)
  | process (s : InputState) (eng : Nat → Bool) (now : Nat)
      (h : Reaches s eng) :
      Reaches (process_pending s now).1 (applyEvents eng (process_pending s now).2)
  | escTimeout (s : InputState) (eng : Nat → Bool) (now : Nat)
      (h : Reaches s eng) (hesc : s.pstate = ParserMode.esc) :
      Reaches {(ascii_key s 27 now).1 with pstate := ParserMode.ground}
        (applyEvents eng (ascii_key s 27 now).2.1)

/-- Reachability restricted to runs in which no scheduling request was
ever dropped by a full pending-release list: each byte-parsing or
ESC-timeout step additionally requires the ghost dropped flag to be
false. -/
inductive ReachesOK : InputState → (Nat → Bool) → Prop where
  | init : ReachesOK initInput (fun _ => false)
  | parse (s : InputState) (eng : Nat → Bool) (ch now : Nat)
      (h : ReachesOK s eng) (hch : ch < 256)
      (hnd : (parse_char s ch now).2.2 = false) :
      ReachesOK (parse_char s ch now).1 (applyEvents eng (parse_char s ch now).2.1)
  | process (s : InputState) (eng : Nat → Bool) (now : Nat)
      (h : ReachesOK s eng) :
      ReachesOK (process_pending s now).1 (applyEvents eng (process_pending s now).2)
  | escTimeout (s : InputState) (eng : Nat → Bool) (now : Nat)
      (h : ReachesOK s eng) (hesc : s.pstate = ParserMode.esc)
      (hnd : (ascii_key s 27 now).2.2 = false) :
      ReachesOK {(ascii_key s 27 now).1 with pstate := ParserMode.ground}
        (applyEvents eng (ascii_key s 27 now).2.1)

/- ===================== Renderer / protocol encoder ===================== -/

/-- Decimal digit characters of a natural number, as written by the
snprintf %d / %ld conversions.  The first argument is recursion fuel,
always instantiated with a bound at least the digit count. -/
def natDecAux : Nat → Nat → List Char
  | 0, _ => []
  | fuel + 1, n =>
    if n < 10 then [Char.ofNat (48 + n)]
    else natDecAux fuel (n / 10) ++ [Char.ofNat (48 + n % 10)]

/-- Decimal rendering of a natural number. -/
def natDec (n : Nat) : List Char := natDecAux (n + 1) n

/-- Renderer state (struct renderer, src/render.c), omitting the two
scratch buffers' contents, which are overwritten on every call before
being read.  WIDTH = 320 and HEIGHT = 200 are compiled into the header
strings. -/
structure Renderer where
  screen_rows : Nat
  screen_cols : Nat
  kitty_id : Nat
  frame_number : Nat
  encoded_buffer_size : Nat
  protocol_buffer_size : Nat
deriving DecidableEq, Repr

/-- Chunk header written by renderer_render_frame: the first chunk of
frame 0 creates the image (a=T with format, size, placement and quality),
the first chunk of a later frame transmits frame data (a=f), and
continuation chunks carry only the m flag (frame 0) or a=f,r=1 with the
m flag (later frames).  The m flag is 1 exactly when more chunks follow. -/
def chunk_header (frame_number kitty_id screen_cols screen_rows : Nat)
    (isFirst more : Bool) : List Char :=
  let mflag := if more then "1" else "0"
  if isFirst then
    if frame_number = 0 then
      ("\x1b_Ga=T,i=" ++ String.mk (natDec kitty_id) ++ ",f=24,s=320,v=200,q=2,c=" ++
        String.mk (natDec screen_cols) ++ ",r=" ++ String.mk (natDec screen_rows) ++
        ",m=" ++ mflag ++ ";").data
    else
      ("\x1b_Ga=f,r=1,i=" ++ String.mk (natDec kitty_id) ++
        ",f=24,x=0,y=0,s=320,v=200,m=" ++ mflag ++ ";").data
  else
    if frame_number = 0 then ("\x1b_Gm=" ++ mflag ++ ";").data
    else ("\x1b_Ga=f,r=1,m=" ++ mflag ++ ";").data

/-- Animate command appended after the chunks of every frame with index
at least 1. -/
def animate_cmd (kitty_id : Nat) : List Char :=
  ("\x1b_Ga=a,c=1,i=" ++ String.mk (natDec kitty_id) ++ ";\x1b\\").data

/-- Leading bytes of the create-image command of frame 0: the a=T verb
and the image identifier. -/
def createVerb (kid : Nat) : List Char := ("\x1b_Ga=T,i=").data ++ natDec kid

/-- Leading bytes of the update command of frames with index at least 1:
the a=f,r=1 verb and the image identifier. -/
def updateVerb (kid : Nat) : List Char := ("\x1b_Ga=f,r=1,i=").data ++ natDec kid

/-- Chunking loop of renderer_render_frame: while encoded data remains,
take min(4096, remaining) bytes (more_chunks is true when strictly more
than 4096 bytes remain), build the chunk header, and copy header, payload
and the two-byte escape trailer into the protocol buffer, validating
remaining capacity before each copy.  A failed validation abandons the
frame, returning the partially filled buffer as the error value. -/
def encode_chunks (frame_number kitty_id screen_cols screen_rows cap : Nat)
    (rest : List Char) (isFirst : Bool) (buf : List Char) :
    Except (List Char) (List Char) :=
  if hr : rest = [] then Except.ok buf
  else
    let more : Bool := decide (4096 < rest.length)
    let this_size := if more then 4096 else rest.length
    let header := chunk_header frame_number kitty_id screen_cols screen_rows isFirst more
    if cap - buf.length ≤ header.length then Except.error buf
    else
      let buf1 := buf ++ header
      if cap < buf1.length + this_size then Except.error buf1
      else
        let buf2 := buf1 ++ rest.take this_size
        if cap < buf2.length + 2 then Except.error buf2
        else
          encode_chunks frame_number kitty_id screen_cols screen_rows cap
            (rest.drop this_size) false (buf2 ++ ['\x1b', '\\'])
termination_by rest.length
decreasing_by
  simp only [List.length_drop]
  have hlen : 0 < rest.length := List.length_pos.mpr hr
  by_cases hc : 4096 < rest.length <;> simp [hc] <;> omega

/-- Frame encoding of renderer_render_frame after base64 encoding: run
the chunk loop on the encoded payload, then append the animate command
(frames with index at least 1) or the cursor-moving CRLF (frame 0), each
guarded by a capacity validation.  The error value carries the partial
buffer contents, which the source keeps but never transmits. -/
def encode_frame (frame_number kitty_id screen_cols screen_rows cap : Nat)
    (encoded : List Char) : Except (List Char) (List Char) :=
  match encode_chunks frame_number kitty_id screen_cols screen_rows cap encoded true [] with
  | Except.error b => Except.error b
  | Except.ok buf =>
    if frame_number > 0 then
      let anim := animate_cmd kitty_id
      if cap - buf.length ≤ anim.length then Except.error buf
      else Except.ok (buf ++ anim)
    else
      if cap < buf.length + 2 then Except.error buf
      else Except.ok (buf ++ ['\r', '\n'])

/-- renderer_render_frame (src/render.c) at the granularity of stream
writes: frame 0 unconditionally writes the three-byte cursor-home
sequence before encoding; the encoded frame is then written in one
batched call only when every capacity validation succeeded, in which
case the frame counter is incremented.  The result is the new renderer
state, the bytes written to the output stream for this call, and whether
an encoding error was reported. -/
def renderer_render_frame (r : Renderer) (encoded : List Char) :
    Renderer × List Char × Bool :=
  let home := if r.frame_number = 0 then ("\x1b[H").data else []
  match encode_frame r.frame_number r.kitty_id r.screen_cols r.screen_rows
      r.protocol_buffer_size encoded with
  | Except.error _ => (r, home, true)
  | Except.ok buf => ({r with frame_number := r.frame_number + 1}, home ++ buf, false)

/-- Successive renderer calls: total stream output of rendering a list of
encoded payloads. -/
def run_render (r : Renderer) : List (List Char) → Renderer × List Char
  | [] => (r, [])
  | p :: ps =>
    let step := renderer_render_frame r p
    let rest := run_render step.1 ps
    (rest.1, step.2.1 ++ rest.2)

/- ===================== Specification-side chunk model ===================== -/

/-- Split a payload into consecutive chunks: every chunk holds exactly
4096 bytes except the last, which holds the remainder (1..4096 bytes);
an empty payload yields no chunks. -/
def chunkList (l : List Char) : List (List Char) :=
  if hl : l = [] then []
  else if 4096 < l.length then l.take 4096 :: chunkList (l.drop 4096)
  else [l]
termination_by l.length
decreasing_by
  simp only [List.length_drop]
  have hlen : 0 < l.length := List.length_pos.mpr hl
  omega

/-- Chunk sizes determined by the payload length alone. -/
def chunkSizes (n : Nat) : List Nat :=
  if n = 0 then []
  else if 4096 < n then 4096 :: chunkSizes (n - 4096)
  else [n]
termination_by n
decreasing_by omega

/-- Wire form of a chunk sequence: each chunk wrapped in its header and
the two-byte escape terminator, the m flag of each header set exactly
when further chunks follow. -/
def wrapChunks (frame_number kitty_id screen_cols screen_rows : Nat)
    (isFirst : Bool) : List (List Char) → List Char
  | [] => []
  | c :: rest =>
    chunk_header frame_number kitty_id screen_cols screen_rows isFirst (!rest.isEmpty) ++
      c ++ ['\x1b', '\\'] ++
      wrapChunks frame_number kitty_id screen_cols screen_rows false rest

/- ===================== Scenario and observation helpers ===================== -/

/-- Key-hold scenario for a literal key: the key event at time t0, a
pending-release poll at tm, the same key event again at t1, a poll at t2,
and a final poll at t3.  Returns the final state and every engine call
made along the way, in order. -/
def c2_run (s : InputState) (ch t0 tm t1 t2 t3 : Nat) :
    InputState × List EngineCall :=
  let a := ascii_key s ch t0
  let b := process_pending a.1 tm
  let c := ascii_key b.1 ch t1
  let d := process_pending c.1 t2
  let e := process_pending d.1 t3
  (e.1, a.2.1 ++ b.2 ++ c.2.1 ++ d.2 ++ e.2)

/-- Number of key_down calls for one key in an event list. -/
def countKeyDown (k : Nat) (evs : List EngineCall) : Nat :=
  evs.count (EngineCall.keyDown k)

/-- Number of key_up calls for one key in an event list. -/
def countKeyUp (k : Nat) (evs : List EngineCall) : Nat :=
  evs.count (EngineCall.keyUp k)

/-- Test for a relative-motion call. -/
def isMouseMove : EngineCall → Bool
  | EngineCall.mouseMove _ _ => true
  | _ => false

/-- The mouse_move calls of an event list, in order. -/
def mouseMovesOf (evs : List EngineCall) : List EngineCall :=
  evs.filter isMouseMove

/-- Seventeen distinct literal keys, none remapped to a shared code:
enough to fill the 16-entry pending-release list and then overflow it. -/
def overflowBytes : List Nat :=
  [97, 98, 99, 100, 101, 103, 104, 106, 107, 108, 109, 110, 111, 112, 113, 114, 115]

/-- State and engine view after parsing overflowBytes from the initial
state at time 0. -/
def overflowRun : InputState × (Nat → Bool) :=
  run_bytes 0 initInput (fun _ => false) overflowBytes

/-- Number of newline characters in a byte list. -/
def countNL (l : List Char) : Nat := l.count '\n'

/-- Invariant relating the held-keys bitmap, the pending-release list and
the engine-side key view: a key's bit is set exactly when the engine has
seen an unmatched key_down, the bit is set exactly when the key has a
pending release entry, keys are pending at most once, and every pending
key is a valid bitmap index. -/
structure HeldInv (s : InputState) (eng : Nat → Bool) : Prop where
  held_eq_eng : ∀ j, s.held j = eng j
  held_iff_pending : ∀ j, s.held j = true ↔ j ∈ KeysOf s.pending
  nodup : (KeysOf s.pending).Nodup
  inrange : ∀ j ∈ KeysOf s.pending, j < 256
  plen : s.pending.length ≤ 16

/-- Concrete input states used as evaluation scenarios. -/
def c3State : InputState :=
  {initInput with pending := [(173, 100)], held := fun j => decide (j = 173)}

/-- CSI-mode initial state for the interrupt scenario. -/
def c9State : InputState := {initInput with pstate := ParserMode.csi}

/-- Mouse state with an established reference position. -/
def c8Mouse : MouseState :=
  { last_x := 2, last_y := 3, tracking := true,
    btn_left := false, btn_middle := false, btn_right := false }

/-- Input state holding a parsed SGR mouse report. -/
def c8State : InputState :=
  {initInput with parms := [35, 5, 6], mouse := c8Mouse}

/- ===================== Theorems: palette converter ===================== -/

theorem palette_scalar_length (pr pg pb : Fin 256 → Nat) (ind : Nat → Fin 256) :
    ∀ n, (palette_to_rgb24_scalar pr pg pb ind n).length = 3 * n := by
  intro n
  induction n with
  | zero => rfl
  | succ n ih => simp [palette_to_rgb24_scalar, ih]; omega

theorem palette_scalar_getD (pr pg pb : Fin 256 → Nat) (ind : Nat → Fin 256) :
    ∀ n i k, i < n → k < 3 →
      (palette_to_rgb24_scalar pr pg pb ind n).getD (3 * i + k) 0 =
        palette_chan pr pg pb k (ind i) := by
  intro n
  induction n with
  | zero => intro i k hi _; omega
  | succ n ih =>
    intro i k hi hk
    by_cases hin : i < n
    · have hlt : 3 * i + k < (palette_to_rgb24_scalar pr pg pb ind n).length := by
        rw [palette_scalar_length]; omega
      rw [palette_to_rgb24_scalar, List.getD_append _ _ 0 _ hlt]
      exact ih i k hin hk
    · have hieq : i = n := by omega
      subst hieq
      have hge : (palette_to_rgb24_scalar pr pg pb ind i).length ≤ 3 * i + k := by
        rw [palette_scalar_length]; omega
      rw [palette_to_rgb24_scalar, List.getD_append_right _ _ 0 _ hge,
        palette_scalar_length]
      have hsub : 3 * i + k - 3 * i = k := by omega
      rw [hsub]
      interval_cases k <;> rfl

theorem palette_scalar_split (pr pg pb : Fin 256 → Nat) (ind : Nat → Fin 256)
    (start : Nat) :
    ∀ c, palette_to_rgb24_scalar pr pg pb ind (start + c) =
      palette_to_rgb24_scalar pr pg pb ind start ++ neon_tail pr pg pb ind start c := by
  intro c
  induction c with
  | zero => simp [neon_tail]
  | succ c ih =>
    have hsc : start + (c + 1) = (start + c) + 1 := by omega
    rw [hsc]
    simp only [palette_to_rgb24_scalar, neon_tail, ih, List.append_assoc]

theorem vst3_gather_eq (pr pg pb : Fin 256 → Nat) (ind : Nat → Fin 256) (b : Nat) :
    vst3_u8 (gather8 pr ind b) (gather8 pg ind b) (gather8 pb ind b) =
      neon_tail pr pg pb ind b 8 := by
  have hr : List.range 8 = [0, 1, 2, 3, 4, 5, 6, 7] := rfl
  simp [gather8, hr, vst3_u8]
  norm_num [neon_tail]

theorem neon_blocks_eq_scalar (pr pg pb : Fin 256 → Nat) (ind : Nat → Fin 256) :
    ∀ q, neon_blocks pr pg pb ind q = palette_to_rgb24_scalar pr pg pb ind (q * 8) := by
  intro q
  induction q with
  | zero => rfl
  | succ q ih =>
    have hq : (q + 1) * 8 = q * 8 + 8 := by omega
    rw [neon_blocks, ih, vst3_gather_eq, hq, palette_scalar_split]

theorem neon_eq_scalar (pr pg pb : Fin 256 → Nat) (ind : Nat → Fin 256) (n : Nat) :
    palette_to_rgb24_neon_impl pr pg pb ind n =
      palette_to_rgb24_scalar pr pg pb ind n := by
  have hle : n / 8 * 8 ≤ n := by omega
  have hsplit : n = n / 8 * 8 + (n - n / 8 * 8) := by omega
  rw [palette_to_rgb24_neon_impl, neon_blocks_eq_scalar,
    ← palette_scalar_split]
  exact congrArg (palette_to_rgb24_scalar pr pg pb ind) (by omega)

/-- C1: for every palette and indexed buffer, with the channel caches
initialized from that palette, the scalar conversion yields a 3*N byte
output whose position 3*i+k holds palette[3*indexed[i]+k], and the NEON
implementation computes exactly the same function as the scalar one (for
every N, including 0 and values not divisible by the 8-pixel batch). -/
theorem c1_palette_contract (palette : Nat → Nat) (ind : Nat → Fin 256)
    (n i k : Nat) (hi : i < n) (hk : k < 3) :
    palette_to_rgb24_neon_impl (palette_r_init palette) (palette_g_init palette)
        (palette_b_init palette) ind n =
      palette_to_rgb24_scalar (palette_r_init palette) (palette_g_init palette)
        (palette_b_init palette) ind n ∧
    (palette_to_rgb24_scalar (palette_r_init palette) (palette_g_init palette)
        (palette_b_init palette) ind n).length = 3 * n ∧
    (palette_to_rgb24_scalar (palette_r_init palette) (palette_g_init palette)
        (palette_b_init palette) ind n).getD (3 * i + k) 0 =
      palette (3 * (ind i).val + k) := by
  refine ⟨neon_eq_scalar _ _ _ _ _, palette_scalar_length _ _ _ _ _, ?_⟩
  rw [palette_scalar_getD _ _ _ _ _ _ _ hi hk]
  interval_cases k
  · simp [palette_chan, palette_r_init]; ring_nf
  · simp [palette_chan, palette_g_init]; ring_nf
  · simp [palette_chan, palette_b_init]; ring_nf

/-- Witness for c1_palette_contract at a concrete palette, buffer and
size 9 (one full 8-pixel batch plus a remainder pixel). -/
theorem c1_witness :
    (8 < 9 ∧ 2 < 3) ∧
    ((palette_to_rgb24_scalar (palette_r_init (fun m => (m * 7) % 251))
        (palette_g_init (fun m => (m * 7) % 251))
        (palette_b_init (fun m => (m * 7) % 251))
        (fun i => ⟨(i * 37) % 256, Nat.mod_lt _ (by norm_num)⟩) 9).getD
          (3 * 8 + 2) 0 =
      (fun m => (m * 7) % 251) (3 * (((8 : Nat) * 37) % 256) + 2)) :=
  ⟨⟨by norm_num, by norm_num⟩,
    (c1_palette_contract (fun m => (m * 7) % 251)
      (fun i => ⟨(i * 37) % 256, Nat.mod_lt _ (by norm_num)⟩)
      9 8 2 (by norm_num) (by norm_num)).2.2⟩

/- ===================== Theorems: release scheduling ===================== -/

theorem keysOf_cons (e : Nat × Nat) (rest : PendingList) :
    KeysOf (e :: rest) = e.1 :: KeysOf rest := rfl

theorem keysOf_append (p q : PendingList) :
    KeysOf (p ++ q) = KeysOf p ++ KeysOf q := by
  simp [KeysOf]

theorem sched_update_none_iff (key rt : Nat) :
    ∀ l : PendingList, sched_update key rt l = none ↔ key ∉ KeysOf l := by
  intro l
  induction l with
  | nil => simp [sched_update, KeysOf]
  | cons e rest ih =>
    rw [sched_update]
    by_cases he : e.1 = key
    · simp [he, KeysOf]
    · simp only [he, if_false]
      cases hu : sched_update key rt rest with
      | none =>
        have hr : key ∉ KeysOf rest := ih.mp hu
        have hnotin : key ∉ KeysOf (e :: rest) := by
          intro hmem
          rcases List.mem_cons.mp (keysOf_cons e rest ▸ hmem) with h1 | h2
          · exact he h1.symm
          · exact hr h2
        simp [hnotin]
      | some r =>
        have hr : key ∈ KeysOf rest := by
          by_contra hn
          exact Option.noConfusion ((ih.mpr hn).symm.trans hu)
        have hin : key ∈ KeysOf (e :: rest) := by
          rw [keysOf_cons]
          exact List.mem_cons.mpr (Or.inr hr)
        simp [hin]

theorem sched_update_found (key rt d : Nat) :
    ∀ p q : PendingList, key ∉ KeysOf p →
      sched_update key rt (p ++ (key, d) :: q) = some (p ++ (key, rt) :: q) := by
  intro p
  induction p with
  | nil => intro q _; simp [sched_update]
  | cons e rest ih =>
    intro q hnp
    have he : e.1 ≠ key := by
      intro hc; apply hnp; rw [keysOf_cons, hc]; exact List.mem_cons_self _ _
    have hrest : key ∉ KeysOf rest := by
      intro hc; apply hnp; rw [keysOf_cons]; exact List.mem_cons.mpr (Or.inr hc)
    simp [sched_update, he, ih q hrest]

/-- sched_key_release on a key with no pending entry and free capacity:
append the entry and set the bit. -/
theorem sched_new (p : PendingList) (h : Nat → Bool) (key now delay : Nat)
    (hnp : key ∉ KeysOf p) (hlen : p.length < 16) :
    sched_key_release p h key now delay =
      ⟨p ++ [(key, now + delay)], markKeyHeld h key, false⟩ := by
  rw [sched_key_release]
  rw [(sched_update_none_iff key (now + delay) p).mpr hnp]
  simp [hlen]

/-- sched_key_release on a key whose entry is present: in-place deadline
update, bitmap untouched. -/
theorem sched_existing (p q : PendingList) (h : Nat → Bool) (key d now delay : Nat)
    (hnp : key ∉ KeysOf p) :
    sched_key_release (p ++ (key, d) :: q) h key now delay =
      ⟨p ++ (key, now + delay) :: q, h, false⟩ := by
  rw [sched_key_release, sched_update_found key (now + delay) d p q hnp]

/- ===================== Theorems: pending release processing ===================== -/

theorem processPR_pending (now : Nat) (l : PendingList) (h : Nat → Bool) :
    (processPR now l h).1 = l.filter (fun e => decide (now < e.2)) := by
  induction l with
  | nil => rfl
  | cons e rest ih =>
    by_cases hc : e.2 ≤ now
    · have hn : ¬ (now < e.2) := by omega
      simp [processPR, hc, ih, hn]
    · have hn : now < e.2 := by omega
      simp [processPR, hc, ih, hn]

theorem processPR_events (now : Nat) (l : PendingList) (h : Nat → Bool) :
    (processPR now l h).2.2 =
      ((l.filter (fun e => decide (e.2 ≤ now))).reverse).map
        (fun e => EngineCall.keyUp e.1) := by
  induction l with
  | nil => rfl
  | cons e rest ih =>
    by_cases hc : e.2 ≤ now
    · simp [processPR, hc, ih]
    · simp [processPR, hc, ih]

theorem processPR_held_live (now : Nat) (l : PendingList) (h : Nat → Bool) (j : Nat)
    (hl : ∀ e ∈ l, e.1 = j → now < e.2) :
    (processPR now l h).2.1 j = h j := by
  induction l with
  | nil => rfl
  | cons e rest ih =>
    have hrest : ∀ e ∈ rest, e.1 = j → now < e.2 :=
      fun e2 he2 hk => hl e2 (List.mem_cons.mpr (Or.inr he2)) hk
    have ihr := ih hrest
    by_cases hc : e.2 ≤ now
    · have hne : e.1 ≠ j := by
        intro hc2
        have := hl e (List.mem_cons_self _ _) hc2
        omega
      simp only [processPR, if_pos hc]
      rw [markKeyReleased]
      by_cases h256 : e.1 < 256
      · simp only [if_pos h256]
        simp only [Ne.symm hne, if_false]
        exact ihr
      · simp only [if_neg h256]
        exact ihr
    · simp only [processPR, if_neg hc]
      exact ihr

theorem processPR_held_expired (now : Nat) (l : PendingList) (h : Nat → Bool)
    (j : Nat) (h256 : j < 256)
    (hex : ∃ e ∈ l, e.1 = j ∧ e.2 ≤ now) :
    (processPR now l h).2.1 j = false := by
  induction l with
  | nil => simp at hex
  | cons e rest ih =>
    rcases hex with ⟨e0, he0, hk0, hd0⟩
    rcases List.mem_cons.mp he0 with he0h | he0t
    · subst he0h
      simp only [processPR, if_pos hd0]
      rw [markKeyReleased, if_pos (hk0 ▸ h256)]
      simp [hk0]
    · have ihr := ih ⟨e0, he0t, hk0, hd0⟩
      by_cases hc : e.2 ≤ now
      · simp only [processPR, if_pos hc]
        rw [markKeyReleased]
        by_cases h256e : e.1 < 256
        · simp only [if_pos h256e]
          by_cases hje : j = e.1 <;> simp [hje, ihr]
        · simp only [if_neg h256e]; exact ihr
      · simp only [processPR, if_neg hc]
        exact ihr

theorem keysOf_filter_not_mem (l : PendingList) (p : Nat × Nat → Bool) (j : Nat)
    (h : j ∉ KeysOf l) : j ∉ KeysOf (l.filter p) := by
  intro hc
  apply h
  rcases List.mem_map.mp hc with ⟨e, he, hej⟩
  exact List.mem_map.mpr ⟨e, List.mem_of_mem_filter he, hej⟩

theorem mem_keysOf_of_entry (l : PendingList) (e : Nat × Nat) (he : e ∈ l) :
    e.1 ∈ KeysOf l := List.mem_map.mpr ⟨e, he, rfl⟩

theorem count_keyUp_map (l : PendingList) (j : Nat) :
    (l.map (fun e => EngineCall.keyUp e.1)).count (EngineCall.keyUp j) =
      (KeysOf l).count j := by
  induction l with
  | nil => rfl
  | cons e rest ih =>
    simp [List.count_cons, ih, keysOf_cons]

theorem count_keyDown_map_keyUp (l : PendingList) (j : Nat) :
    (l.map (fun e => EngineCall.keyUp e.1)).count (EngineCall.keyDown j) = 0 := by
  induction l with
  | nil => rfl
  | cons e rest ih => simp [List.count_cons, ih]

theorem asciiDoomKey_lt (ch : Nat) (h : ch < 256) : asciiDoomKey ch < 256 := by
  simp only [asciiDoomKey]
  split_ifs <;> omega

theorem keysOf_reverse (l : PendingList) : KeysOf l.reverse = (KeysOf l).reverse := by
  simp [KeysOf]

/-- C2: holding a key — the same literal byte arriving again within the
50 ms hold window — sends exactly one key_down to the engine: the repeat
event emits no calls at all and only extends the pending release
deadline, and exactly one key_up follows once the extended deadline
expires. -/
theorem c2_key_hold_idempotence (s : InputState) (ch k t0 tm t1 t2 t3 : Nat)
    (hk : k = asciiDoomKey ch) (hch : ch < 256)
    (hheld : s.held k = false) (hpend : k ∉ KeysOf s.pending)
    (hroom : s.pending.length < 16)
    (htm : tm < t0 + 50) (ht1 : t1 < t0 + 50) (ht2 : t2 < t1 + 50)
    (ht3 : t1 + 50 ≤ t3) :
    countKeyDown k (c2_run s ch t0 tm t1 t2 t3).2 = 1 ∧
    countKeyUp k (c2_run s ch t0 tm t1 t2 t3).2 = 1 ∧
    (ascii_key (process_pending (ascii_key s ch t0).1 tm).1 ch t1).2.1 = [] := by
  have hk256 : k < 256 := hk ▸ asciiDoomKey_lt ch hch
  have hih : isKeyHeld s.held k = false := by
    rw [isKeyHeld, if_pos hk256]; exact hheld
  -- step a: first key event
  have ha : ascii_key s ch t0 =
      ({s with pending := s.pending ++ [(k, t0 + 50)], held := markKeyHeld s.held k},
        [EngineCall.keyDown k], false) := by
    simp only [ascii_key, ← hk, hih, sched_new s.pending s.held k t0 50 hpend hroom]
    simp
  -- step b: poll before the deadline
  have hbpend : (process_pending (ascii_key s ch t0).1 tm).1.pending =
      s.pending.filter (fun e => decide (tm < e.2)) ++ [(k, t0 + 50)] := by
    rw [ha]
    simp only [process_pending]
    rw [processPR_pending]
    simp only [List.filter_append]
    simp [htm]
  have hlive_a : ∀ e ∈ s.pending ++ [(k, t0 + 50)], e.1 = k → tm < e.2 := by
    intro e he hek
    rcases List.mem_append.mp he with h1 | h2
    · exact absurd (hek ▸ mem_keysOf_of_entry _ e h1) hpend
    · have he2 : e = (k, t0 + 50) := by simpa using h2
      rw [he2]; exact htm
  have hbheld : (process_pending (ascii_key s ch t0).1 tm).1.held k = true := by
    rw [ha]
    simp only [process_pending]
    rw [processPR_held_live _ _ _ _ hlive_a]
    rw [markKeyHeld, if_pos hk256]
    simp
  have hbcnt : countKeyUp k (process_pending (ascii_key s ch t0).1 tm).2 = 0 ∧
      countKeyDown k (process_pending (ascii_key s ch t0).1 tm).2 = 0 := by
    rw [ha]
    simp only [process_pending]
    rw [processPR_events]
    have hexp : (s.pending ++ [(k, t0 + 50)]).filter (fun e => decide (e.2 ≤ tm)) =
        s.pending.filter (fun e => decide (e.2 ≤ tm)) := by
      simp only [List.filter_append]
      simp [show ¬ (t0 + 50 ≤ tm) by omega]
    rw [hexp]
    constructor
    · rw [countKeyUp, count_keyUp_map, keysOf_reverse, List.count_reverse]
      exact List.count_eq_zero.mpr (keysOf_filter_not_mem _ _ _ hpend)
    · rw [countKeyDown, count_keyDown_map_keyUp]
  -- name the state after the first poll
  obtain ⟨b1, hB⟩ : ∃ b1, (process_pending (ascii_key s ch t0).1 tm).1 = b1 := ⟨_, rfl⟩
  rw [hB] at hbpend hbheld
  have hkF : k ∉ KeysOf (s.pending.filter (fun e => decide (tm < e.2))) :=
    keysOf_filter_not_mem _ _ _ hpend
  have hih2 : isKeyHeld b1.held k = true := by
    rw [isKeyHeld, if_pos hk256]; exact hbheld
  -- step c: repeated key event within the hold window
  have hc : ascii_key b1 ch t1 =
      ({b1 with pending := s.pending.filter (fun e => decide (tm < e.2)) ++ [(k, t1 + 50)]},
        [], false) := by
    simp only [ascii_key, ← hk, hih2, hbpend]
    rw [sched_existing (s.pending.filter (fun e => decide (tm < e.2))) []
      b1.held k (t0 + 50) t1 50 hkF]
    simp
  -- step d: poll before the extended deadline
  have hdpend : (process_pending (ascii_key b1 ch t1).1 t2).1.pending =
      (s.pending.filter (fun e => decide (tm < e.2))).filter
          (fun e => decide (t2 < e.2)) ++ [(k, t1 + 50)] := by
    rw [hc]
    simp only [process_pending]
    rw [processPR_pending]
    simp only [List.filter_append]
    simp [ht2]
  have hdcnt : countKeyUp k (process_pending (ascii_key b1 ch t1).1 t2).2 = 0 ∧
      countKeyDown k (process_pending (ascii_key b1 ch t1).1 t2).2 = 0 := by
    rw [hc]
    simp only [process_pending]
    rw [processPR_events]
    have hexp : (s.pending.filter (fun e => decide (tm < e.2)) ++ [(k, t1 + 50)]).filter
          (fun e => decide (e.2 ≤ t2)) =
        (s.pending.filter (fun e => decide (tm < e.2))).filter
          (fun e => decide (e.2 ≤ t2)) := by
      simp only [List.filter_append]
      simp [show ¬ (t1 + 50 ≤ t2) by omega]
    rw [hexp]
    constructor
    · rw [countKeyUp, count_keyUp_map, keysOf_reverse, List.count_reverse]
      exact List.count_eq_zero.mpr (keysOf_filter_not_mem _ _ _ hkF)
    · rw [countKeyDown, count_keyDown_map_keyUp]
  -- step e: final poll after the extended deadline
  obtain ⟨d1, hD⟩ : ∃ d1, (process_pending (ascii_key b1 ch t1).1 t2).1 = d1 := ⟨_, rfl⟩
  rw [hD] at hdpend
  have hecnt : countKeyUp k (process_pending d1 t3).2 = 1 ∧
      countKeyDown k (process_pending d1 t3).2 = 0 := by
    simp only [process_pending]
    rw [hdpend, processPR_events]
    have hexp : ((s.pending.filter (fun e => decide (tm < e.2))).filter
            (fun e => decide (t2 < e.2)) ++ [(k, t1 + 50)]).filter
          (fun e => decide (e.2 ≤ t3)) =
        ((s.pending.filter (fun e => decide (tm < e.2))).filter
            (fun e => decide (t2 < e.2))).filter
          (fun e => decide (e.2 ≤ t3)) ++ [(k, t1 + 50)] := by
      simp only [List.filter_append]
      simp [ht3]
    rw [hexp]
    constructor
    · rw [countKeyUp, count_keyUp_map, keysOf_reverse, List.count_reverse,
        keysOf_append, List.count_append]
      rw [List.count_eq_zero.mpr (keysOf_filter_not_mem _ _ _
        (keysOf_filter_not_mem _ _ _ (keysOf_filter_not_mem _ _ _ hpend)))]
      simp [KeysOf]
    · rw [countKeyDown, count_keyDown_map_keyUp]
  -- assemble the trace
  have hruneq : (c2_run s ch t0 tm t1 t2 t3).2 =
      (ascii_key s ch t0).2.1 ++ (process_pending (ascii_key s ch t0).1 tm).2 ++
      (ascii_key b1 ch t1).2.1 ++ (process_pending (ascii_key b1 ch t1).1 t2).2 ++
      (process_pending d1 t3).2 := by
    simp only [c2_run, hB, hD]
  have hacnt : countKeyDown k (ascii_key s ch t0).2.1 = 1 ∧
      countKeyUp k (ascii_key s ch t0).2.1 = 0 := by
    rw [ha]
    constructor <;> simp [countKeyDown, countKeyUp, List.count_cons]
  have hccnt : countKeyDown k (ascii_key b1 ch t1).2.1 = 0 ∧
      countKeyUp k (ascii_key b1 ch t1).2.1 = 0 := by
    rw [hc]
    constructor <;> simp [countKeyDown, countKeyUp]
  refine ⟨?_, ?_, by rw [hB, hc]⟩
  · rw [hruneq]
    simp only [countKeyDown, List.count_append] at hacnt hbcnt hccnt hdcnt hecnt ⊢
    omega
  · rw [hruneq]
    simp only [countKeyUp, List.count_append] at hacnt hbcnt hccnt hdcnt hecnt ⊢
    omega

theorem c2_witness :
    countKeyDown 97 (c2_run initInput 97 0 10 20 40 70).2 = 1 ∧
    countKeyUp 97 (c2_run initInput 97 0 10 20 40 70).2 = 1 ∧
    (ascii_key (process_pending (ascii_key initInput 97 0).1 10).1 97 20).2.1 = [] :=
  c2_key_hold_idempotence initInput 97 97 0 10 20 40 70 (by decide) (by decide)
    rfl (by decide) (by decide) (by decide) (by decide) (by decide) (by decide)

theorem filter_keys_nil (j : Nat) :
    ∀ l : PendingList, j ∉ KeysOf l →
      l.filter (fun e => decide (e.1 = j)) = [] := by
  intro l
  induction l with
  | nil => intro _; rfl
  | cons e rest ih =>
    intro hn
    have he : e.1 ≠ j := fun hc =>
      hn (by rw [keysOf_cons, hc]; exact List.mem_cons_self _ _)
    have hrest : j ∉ KeysOf rest := fun hc =>
      hn (by rw [keysOf_cons]; exact List.mem_cons.mpr (Or.inr hc))
    simp [List.filter_cons, he, ih hrest]

theorem csi_check_found (key now d : Nat) (q : PendingList) :
    ∀ p : PendingList, key ∉ KeysOf p →
      csi_check key now (p ++ (key, d) :: q) =
        if 25 < (d : Int) - (now : Int) then (p ++ q, true)
        else (p ++ (key, d) :: q, false) := by
  intro p
  induction p with
  | nil =>
    intro _
    by_cases hc : 25 < (d : Int) - (now : Int)
    · simp [csi_check, hc]
    · simp [csi_check, hc]
  | cons e rest ih =>
    intro hnp
    have he : e.1 ≠ key := fun hc =>
      hnp (by rw [keysOf_cons, hc]; exact List.mem_cons_self _ _)
    have hrest : key ∉ KeysOf rest := fun hc =>
      hnp (by rw [keysOf_cons]; exact List.mem_cons.mpr (Or.inr hc))
    by_cases hc : 25 < (d : Int) - (now : Int)
    · simp [csi_check, he, ih hrest, hc]
    · simp [csi_check, he, ih hrest, hc]

theorem sched_update_filter_ne (key rt j : Nat) (hne : key ≠ j) :
    ∀ p l : PendingList, sched_update key rt p = some l →
      l.filter (fun e => decide (e.1 = j)) = p.filter (fun e => decide (e.1 = j)) := by
  intro p
  induction p with
  | nil => intro l hl; simp [sched_update] at hl
  | cons e rest ih =>
    intro l hl
    rw [sched_update] at hl
    by_cases he : e.1 = key
    · rw [if_pos he] at hl
      have hl2 : l = (key, rt) :: rest := by
        injection hl with h2; exact h2.symm
      subst hl2
      simp [List.filter_cons, hne, he]
    · rw [if_neg he] at hl
      cases hu : sched_update key rt rest with
      | none => rw [hu] at hl; cases hl
      | some r =>
        rw [hu] at hl
        have hl2 : l = e :: r := by injection hl with h2; exact h2.symm
        subst hl2
        simp [List.filter_cons, ih r hu]

theorem sched_filter_ne (p : PendingList) (h : Nat → Bool) (key now delay j : Nat)
    (hne : key ≠ j) :
    (sched_key_release p h key now delay).pending.filter (fun e => decide (e.1 = j)) =
      p.filter (fun e => decide (e.1 = j)) ∧
    (sched_key_release p h key now delay).held j = h j := by
  rw [sched_key_release]
  cases hu : sched_update key (now + delay) p with
  | some l =>
    exact ⟨sched_update_filter_ne key (now + delay) j hne p l hu, rfl⟩
  | none =>
    by_cases hlen : p.length < 16
    · simp only [hlen, if_pos]
      constructor
      · simp [List.filter_append, hne]
      · rw [markKeyHeld]
        by_cases h256 : key < 256
        · simp only [if_pos h256]
          simp [Ne.symm hne]
        · simp only [if_neg h256]
    · simp [hlen]

theorem sched_keys_filter_ne (now delay j : Nat) :
    ∀ (ks : List Nat) (p : PendingList) (h : Nat → Bool), j ∉ ks →
      (sched_keys ks p h now delay).pending.filter (fun e => decide (e.1 = j)) =
        p.filter (fun e => decide (e.1 = j)) ∧
      (sched_keys ks p h now delay).held j = h j := by
  intro ks
  induction ks with
  | nil => intro p h _; exact ⟨rfl, rfl⟩
  | cons m rest ih =>
    intro p h hn
    have hm : m ≠ j := fun hc => hn (hc ▸ List.mem_cons_self _ _)
    have hrest : j ∉ rest := fun hc => hn (List.mem_cons.mpr (Or.inr hc))
    have hstep := sched_filter_ne p h m now delay j hm
    have hrec := ih (sched_key_release p h m now delay).pending
      (sched_key_release p h m now delay).held hrest
    refine ⟨?_, ?_⟩
    · simp only [sched_keys]
      rw [hrec.1, hstep.1]
    · simp only [sched_keys]
      rw [hrec.2, hstep.2]

theorem modifierKeys_mem (parm2 m : Nat) (hm : m ∈ modifierKeys parm2) :
    m = 182 ∨ m = 184 ∨ m = 157 := by
  rw [modifierKeys] at hm
  split_ifs at hm <;> simp_all
  tauto

theorem csiTildeKey_not_mod (parm1 : Nat) :
    csiTildeKey parm1 ≠ 182 ∧ csiTildeKey parm1 ≠ 184 ∧ csiTildeKey parm1 ≠ 157 := by
  unfold csiTildeKey
  split_ifs <;> norm_num

theorem csiDoomKey_not_mod (ch parm1 : Nat) :
    csiDoomKey ch parm1 ≠ 182 ∧ csiDoomKey ch parm1 ≠ 184 ∧ csiDoomKey ch parm1 ≠ 157 := by
  unfold csiDoomKey
  split_ifs <;> first
    | exact csiTildeKey_not_mod parm1
    | norm_num

/-- C3: a CSI-class key event (arrow or function key) arriving while the
key is held: when the pending release lies more than 25 ms in the future
the parser sends an immediate key_up, removes the entry, and sends a
fresh key_down (after any modifier key_downs); when the release is 25 ms
or closer, no key event is sent at all.  In both cases the key ends up
with exactly one pending entry, deadline now + delay, and stays held. -/
theorem c3_distinct_keypress (s : InputState) (ch parm1 parm2 now k d delay : Nat)
    (p q : PendingList)
    (hk : k = csiDoomKey ch parm1) (hk0 : k ≠ 0) (hk256 : k < 256)
    (hdelay : delay = if k = 173 ∨ k = 175 ∨ k = 172 ∨ k = 174 then 80 else 50)
    (hheld : s.held k = true)
    (hpend : s.pending = p ++ (k, d) :: q)
    (hp : k ∉ KeysOf p) (hq : k ∉ KeysOf q)
    (hlen : s.pending.length ≤ 16) :
    (if 25 < (d : Int) - (now : Int) then
        (csi_key s ch parm1 parm2 now).2.1 =
          EngineCall.keyUp k ::
            ((modifierKeys parm2).map EngineCall.keyDown ++ [EngineCall.keyDown k])
      else (csi_key s ch parm1 parm2 now).2.1 = []) ∧
    (csi_key s ch parm1 parm2 now).1.pending.filter (fun e => decide (e.1 = k)) =
      [(k, now + delay)] ∧
    (csi_key s ch parm1 parm2 now).1.held k = true := by
  have hih : isKeyHeld s.held k = true := by
    rw [isKeyHeld, if_pos hk256]; exact hheld
  have hnm := csiDoomKey_not_mod ch parm1
  have hmods : k ∉ modifierKeys parm2 := by
    intro hmem
    rcases modifierKeys_mem parm2 k hmem with h1 | h1 | h1
    · exact hnm.1 (by rw [← hk]; exact h1)
    · exact hnm.2.1 (by rw [← hk]; exact h1)
    · exact hnm.2.2 (by rw [← hk]; exact h1)
  by_cases hcmp : 25 < (d : Int) - (now : Int)
  · -- distinct new keypress
    have hchk : csi_check k now s.pending = (p ++ q, true) := by
      rw [hpend, csi_check_found k now d q p hp, if_pos hcmp]
    have hlen2 : (p ++ q).length < 16 := by
      rw [hpend] at hlen
      simp only [List.length_append, List.length_cons] at hlen
      simp only [List.length_append]
      omega
    have hkpq : k ∉ KeysOf (p ++ q) := by
      rw [keysOf_append]
      intro hmem
      rcases List.mem_append.mp hmem with h1 | h1
      · exact hp h1
      · exact hq h1
    have hsched := sched_new (p ++ q) (markKeyReleased s.held k) k now delay hkpq hlen2
    have hkeys := sched_keys_filter_ne now delay k (modifierKeys parm2)
      ((p ++ q) ++ [(k, now + delay)]) (markKeyHeld (markKeyReleased s.held k) k) hmods
    simp only [csi_key, ← hk, if_neg hk0, hih, hchk, ← hdelay]
    simp only [Bool.not_true, Bool.false_or, if_true, Bool.false_eq_true, if_false]
    rw [hsched]
    simp only [if_pos hcmp]
    refine ⟨by simp, ?_, ?_⟩
    · rw [hkeys.1]
      simp only [List.filter_append, filter_keys_nil k (p ++ q) hkpq]
      simp
    · rw [hkeys.2, markKeyHeld, if_pos hk256]
      simp
  · -- continuation of a hold: extend the release only
    have hchk : csi_check k now s.pending = (p ++ (k, d) :: q, false) := by
      rw [hpend, csi_check_found k now d q p hp, if_neg hcmp]
    have hsched := sched_existing p q s.held k d now delay hp
    simp only [csi_key, ← hk, if_neg hk0, hih, hchk, ← hdelay]
    simp only [Bool.not_true, Bool.false_or, if_true, Bool.false_eq_true, if_false]
    rw [hsched]
    simp only [if_neg hcmp]
    refine ⟨by simp, ?_, ?_⟩
    · simp only [List.filter_append, filter_keys_nil k p hp, List.filter_cons,
        filter_keys_nil k q hq]
      simp
    · exact hheld

theorem c3_witness :
    (if 25 < (100 : Int) - (10 : Int) then
        (csi_key c3State 65 0 0 10).2.1 =
          EngineCall.keyUp 173 ::
            ((modifierKeys 0).map EngineCall.keyDown ++ [EngineCall.keyDown 173])
      else (csi_key c3State 65 0 0 10).2.1 = []) ∧
    (csi_key c3State 65 0 0 10).1.pending.filter (fun e => decide (e.1 = 173)) =
      [(173, 10 + 80)] ∧
    (csi_key c3State 65 0 0 10).1.held 173 = true :=
  c3_distinct_keypress c3State 65 0 0 10 173 100 80 [] [] (by decide) (by decide)
    (by decide) (by decide) (by decide) (by decide) (by decide) (by decide) (by decide)

/-- C9 (amended): the parser is a total function, and a byte arriving in
CSI state that is not a prefix byte, digit or parameter separator, and
not the globally intercepted bytes 0x03 and 0x1B, always returns the
parser to GROUND; byte 0x03 only requests exit, leaving the parser in
CSI, and byte 0x1B starts a new escape sequence, entering ESC. -/
theorem c9_csi_interrupt (s : InputState) (ch now : Nat)
    (hcsi : s.pstate = ParserMode.csi)
    (h3 : ch ≠ 3) (h27 : ch ≠ 27)
    (hlead : ¬ (ch = 63 ∨ ch = 62 ∨ ch = 60))
    (hdig : ¬ (48 ≤ ch ∧ ch ≤ 57)) (hsemi : ch ≠ 59) :
    (parse_char s ch now).1.pstate = ParserMode.ground ∧
    (parse_char s 3 now).1.pstate = ParserMode.csi ∧
    (parse_char s 27 now).1.pstate = ParserMode.esc := by
  refine ⟨?_, ?_, ?_⟩
  · simp only [parse_char, if_neg h3, if_neg h27, hcsi]
    simp only [if_neg hlead, if_neg hdig, if_neg hsemi]
    split_ifs <;> simp
  · simp [parse_char, hcsi]
  · simp [parse_char, hcsi]

theorem c9_witness :
    (parse_char c9State 7 0).1.pstate = ParserMode.ground ∧
    (parse_char c9State 3 0).1.pstate = ParserMode.csi ∧
    (parse_char c9State 27 0).1.pstate = ParserMode.esc :=
  c9_csi_interrupt c9State 7 0 rfl (by decide) (by decide) (by decide)
    (by decide) (by decide)

/-- Counterexample to C9 as stated: the control byte 0x03 interrupting
the CSI sequence ESC [ leaves the parser in CSI, not GROUND. -/
theorem c9_counterexample :
    (run_bytes 0 initInput (fun _ => false) [27, 91, 3]).1.pstate = ParserMode.csi ∧
    ParserMode.csi ≠ ParserMode.ground := by
  constructor
  · rfl
  · decide

theorem mouse_buttons_no_move (s1 : InputState) (cb final now : Nat) :
    mouseMovesOf (mouse_buttons_step s1 cb final now).2.1 = [] ∧
    (mouse_buttons_step s1 cb final now).1.mouse.last_x = s1.mouse.last_x ∧
    (mouse_buttons_step s1 cb final now).1.mouse.last_y = s1.mouse.last_y := by
  simp only [mouse_buttons_step]
  split_ifs <;>
    simp [mouseMovesOf, isMouseMove, set_mouse_button] <;>
    split_ifs <;> simp

/-- C8: for a non-wheel SGR report with enough parameters, the first
report after tracking starts never produces a mouse_move and only
establishes the reference position; every later report forwards a
mouse_move whose per-axis delta is the coordinate difference clamped to
100 cells and scaled by the sensitivity factor 10, forwarded exactly when
nonzero, with the reference position updated exactly when motion was
forwarded. -/
theorem c8_mouse_reference (s : InputState) (final now cb cx cy : Nat)
    (rest : List Nat)
    (hparms : s.parms = cb :: cx :: cy :: rest)
    (hwheel : ¬ (cb / 64 % 2 = 1)) :
    (s.mouse.tracking = false →
      (parse_mouse_sgr s final now).2.1 = [] ∧
      (parse_mouse_sgr s final now).1.mouse.last_x = (cx : Int) ∧
      (parse_mouse_sgr s final now).1.mouse.last_y = (cy : Int) ∧
      (parse_mouse_sgr s final now).1.mouse.tracking = true) ∧
    (s.mouse.tracking = true →
      ((clampDelta ((cx : Int) - s.mouse.last_x) * 10 ≠ 0 ∨
          clampDelta ((cy : Int) - s.mouse.last_y) * 10 ≠ 0) →
        mouseMovesOf (parse_mouse_sgr s final now).2.1 =
          [EngineCall.mouseMove (clampDelta ((cx : Int) - s.mouse.last_x) * 10)
            (clampDelta ((cy : Int) - s.mouse.last_y) * 10)] ∧
        (parse_mouse_sgr s final now).1.mouse.last_x = (cx : Int) ∧
        (parse_mouse_sgr s final now).1.mouse.last_y = (cy : Int)) ∧
      ((clampDelta ((cx : Int) - s.mouse.last_x) * 10 = 0 ∧
          clampDelta ((cy : Int) - s.mouse.last_y) * 10 = 0) →
        mouseMovesOf (parse_mouse_sgr s final now).2.1 = [] ∧
        (parse_mouse_sgr s final now).1.mouse.last_x = s.mouse.last_x ∧
        (parse_mouse_sgr s final now).1.mouse.last_y = s.mouse.last_y)) := by
  have hlen : ¬ (s.parms.length < 3) := by
    rw [hparms]; simp
  have hp0 : s.parms.getD 0 0 = cb := by rw [hparms]; rfl
  have hp1 : s.parms.getD 1 0 = cx := by rw [hparms]; rfl
  have hp2 : s.parms.getD 2 0 = cy := by rw [hparms]; rfl
  constructor
  · intro htrk
    simp only [parse_mouse_sgr, if_neg hlen, hp0, hp1, hp2, if_neg hwheel, htrk]
    simp
  · intro htrk
    have htrkne : ¬ (s.mouse.tracking = false) := by rw [htrk]; simp
    constructor
    · intro hmoved
      have hmb : decide (clampDelta ((cx : Int) - s.mouse.last_x) * 10 ≠ 0 ∨
          clampDelta ((cy : Int) - s.mouse.last_y) * 10 ≠ 0) = true := by
        simp only [decide_eq_true_eq]
        exact hmoved
      simp only [parse_mouse_sgr, if_neg hlen, hp0, hp1, hp2, if_neg hwheel,
        if_neg htrkne, hmb, if_true]
      have hbtn := mouse_buttons_no_move
        {s with mouse := {s.mouse with last_x := (cx : Int), last_y := (cy : Int)}}
        cb final now
      refine ⟨?_, ?_, ?_⟩
      · rw [mouseMovesOf, List.filter_append]
        rw [mouseMovesOf] at hbtn
        rw [hbtn.1]
        simp [isMouseMove]
      · rw [hbtn.2.1]
      · rw [hbtn.2.2]
    · intro hstill
      have hmb : decide (clampDelta ((cx : Int) - s.mouse.last_x) * 10 ≠ 0 ∨
          clampDelta ((cy : Int) - s.mouse.last_y) * 10 ≠ 0) = false := by
        simp only [decide_eq_false_iff_not]
        push_neg
        exact ⟨hstill.1, hstill.2⟩
      simp only [parse_mouse_sgr, if_neg hlen, hp0, hp1, hp2, if_neg hwheel,
        if_neg htrkne, hmb, Bool.false_eq_true, if_false]
      have hbtn := mouse_buttons_no_move s cb final now
      refine ⟨?_, ?_, ?_⟩
      · rw [mouseMovesOf, List.filter_append]
        rw [mouseMovesOf] at hbtn
        rw [hbtn.1]
        simp
      · rw [hbtn.2.1]
      · rw [hbtn.2.2]


theorem c8_witness :
    (c8State.mouse.tracking = false →
      (parse_mouse_sgr c8State 77 0).2.1 = [] ∧
      (parse_mouse_sgr c8State 77 0).1.mouse.last_x = ((5 : Nat) : Int) ∧
      (parse_mouse_sgr c8State 77 0).1.mouse.last_y = ((6 : Nat) : Int) ∧
      (parse_mouse_sgr c8State 77 0).1.mouse.tracking = true) ∧
    (c8State.mouse.tracking = true →
      ((clampDelta (((5 : Nat) : Int) - c8State.mouse.last_x) * 10 ≠ 0 ∨
          clampDelta (((6 : Nat) : Int) - c8State.mouse.last_y) * 10 ≠ 0) →
        mouseMovesOf (parse_mouse_sgr c8State 77 0).2.1 =
          [EngineCall.mouseMove (clampDelta (((5 : Nat) : Int) - c8State.mouse.last_x) * 10)
            (clampDelta (((6 : Nat) : Int) - c8State.mouse.last_y) * 10)] ∧
        (parse_mouse_sgr c8State 77 0).1.mouse.last_x = ((5 : Nat) : Int) ∧
        (parse_mouse_sgr c8State 77 0).1.mouse.last_y = ((6 : Nat) : Int)) ∧
      ((clampDelta (((5 : Nat) : Int) - c8State.mouse.last_x) * 10 = 0 ∧
          clampDelta (((6 : Nat) : Int) - c8State.mouse.last_y) * 10 = 0) →
        mouseMovesOf (parse_mouse_sgr c8State 77 0).2.1 = [] ∧
        (parse_mouse_sgr c8State 77 0).1.mouse.last_x = c8State.mouse.last_x ∧
        (parse_mouse_sgr c8State 77 0).1.mouse.last_y = c8State.mouse.last_y)) :=
  c8_mouse_reference c8State 77 0 35 5 6 [] rfl (by decide)

/- ===================== Theorems: held-bitmap invariant ===================== -/

theorem applyEvents_append (a b : List EngineCall) :
    ∀ eng : Nat → Bool, applyEvents eng (a ++ b) = applyEvents (applyEvents eng a) b := by
  induction a with
  | nil => intro eng; rfl
  | cons e rest ih =>
    intro eng
    cases e <;> simp [applyEvents, ih]

theorem applyEvents_downs (l : List Nat) :
    ∀ (eng : Nat → Bool) (j : Nat),
      applyEvents eng (l.map EngineCall.keyDown) j = (if j ∈ l then true else eng j) := by
  induction l with
  | nil => intro eng j; simp [applyEvents]
  | cons m rest ih =>
    intro eng j
    simp only [List.map_cons, applyEvents, ih]
    by_cases h1 : j ∈ rest
    · simp [h1]
    · by_cases h2 : j = m <;> simp [engSet, h1, h2]

theorem applyEvents_ups (l : PendingList) :
    ∀ (eng : Nat → Bool) (j : Nat),
      applyEvents eng (l.map (fun e => EngineCall.keyUp e.1)) j =
        (if j ∈ KeysOf l then false else eng j) := by
  induction l with
  | nil => intro eng j; simp [applyEvents, KeysOf]
  | cons e rest ih =>
    intro eng j
    simp only [List.map_cons, applyEvents, ih, keysOf_cons]
    by_cases h1 : j ∈ KeysOf rest
    · simp [h1]
    · by_cases h2 : j = e.1 <;> simp [engSet, h1, h2]

theorem ss3DoomKey_lt (ch : Nat) : ss3DoomKey ch < 256 := by
  rw [ss3DoomKey]; split_ifs <;> norm_num

theorem csiTildeKey_lt (parm1 : Nat) : csiTildeKey parm1 < 256 := by
  rw [csiTildeKey]; split_ifs <;> norm_num

theorem csiDoomKey_lt (ch parm1 : Nat) : csiDoomKey ch parm1 < 256 := by
  rw [csiDoomKey]
  split_ifs <;> first
    | exact csiTildeKey_lt parm1
    | norm_num

theorem sched_update_keys (key rt : Nat) :
    ∀ p l : PendingList, sched_update key rt p = some l → KeysOf l = KeysOf p := by
  intro p
  induction p with
  | nil => intro l hl; simp [sched_update] at hl
  | cons e rest ih =>
    intro l hl
    rw [sched_update] at hl
    by_cases he : e.1 = key
    · rw [if_pos he] at hl
      have hl2 : l = (key, rt) :: rest := by injection hl with h2; exact h2.symm
      subst hl2
      simp [keysOf_cons, he]
    · rw [if_neg he] at hl
      cases hu : sched_update key rt rest with
      | none => rw [hu] at hl; cases hl
      | some r =>
        rw [hu] at hl
        have hl2 : l = e :: r := by injection hl with h2; exact h2.symm
        subst hl2
        simp [keysOf_cons, ih r hu]

theorem sched_update_isSome_mem (key rt : Nat) (p : PendingList) (l : PendingList)
    (h : sched_update key rt p = some l) : key ∈ KeysOf p := by
  by_contra hn
  exact Option.noConfusion (((sched_update_none_iff key rt p).mpr hn).symm.trans h)

/-- Effect of a non-dropped sched_key_release on the bitmap-and-list
invariant pieces: the key's bit becomes set, all other bits are
untouched, and the bit-to-entry correspondence, key uniqueness, range
bound and capacity bound are preserved. -/
theorem sched_ok (p : PendingList) (h : Nat → Bool) (key now delay : Nat)
    (hB : ∀ j, h j = true ↔ j ∈ KeysOf p)
    (hC : (KeysOf p).Nodup) (hD : ∀ j ∈ KeysOf p, j < 256)
    (hlen : p.length ≤ 16)
    (hk : key < 256)
    (hnd : (sched_key_release p h key now delay).dropped = false) :
    (∀ j, (sched_key_release p h key now delay).held j =
        (if j = key then true else h j)) ∧
    (∀ j, (sched_key_release p h key now delay).held j = true ↔
        j ∈ KeysOf (sched_key_release p h key now delay).pending) ∧
    (KeysOf (sched_key_release p h key now delay).pending).Nodup ∧
    (∀ j ∈ KeysOf (sched_key_release p h key now delay).pending, j < 256) ∧
    (sched_key_release p h key now delay).pending.length ≤ 16 := by
  rw [sched_key_release] at hnd ⊢
  cases hu : sched_update key (now + delay) p with
  | some l =>
    have hkeys := sched_update_keys key (now + delay) p l hu
    have hklen : l.length = p.length := by
      have := congrArg List.length hkeys
      simpa [KeysOf] using this
    have hmem := sched_update_isSome_mem key (now + delay) p l hu
    simp only [hu]
    refine ⟨?_, ?_, ?_, ?_, ?_⟩
    · intro j
      by_cases hj : j = key
      · subst hj; simp [(hB j).mpr hmem]
      · simp [hj]
    · intro j; rw [hkeys]; exact hB j
    · rw [hkeys]; exact hC
    · intro j hj; rw [hkeys] at hj; exact hD j hj
    · omega
  | none =>
    have hnm : key ∉ KeysOf p := (sched_update_none_iff key (now + delay) p).mp hu
    simp only [hu] at hnd ⊢
    by_cases hl : p.length < 16
    · simp only [if_pos hl]
      refine ⟨?_, ?_, ?_, ?_, ?_⟩
      · intro j
        rw [markKeyHeld, if_pos hk]
      · intro j
        rw [markKeyHeld, if_pos hk]
        rw [keysOf_append]
        by_cases hj : j = key
        · subst hj; simp [KeysOf]
        · simp only [if_neg hj]
          rw [hB j]
          constructor
          · intro hm; exact List.mem_append.mpr (Or.inl hm)
          · intro hm
            rcases List.mem_append.mp hm with h1 | h1
            · exact h1
            · exact absurd (by simpa [KeysOf] using h1) hj
      · rw [keysOf_append]
        refine List.Nodup.append hC (by simp [KeysOf]) ?_
        intro a ha hb
        have : a = key := by simpa [KeysOf] using hb
        exact hnm (this ▸ ha)
      · intro j hj
        rw [keysOf_append] at hj
        rcases List.mem_append.mp hj with h1 | h1
        · exact hD j h1
        · have : j = key := by simpa [KeysOf] using h1
          omega
      · simp only [List.length_append, List.length_singleton]
        omega
    · simp [hl] at hnd

theorem sched_keys_ok (now delay : Nat) :
    ∀ (ks : List Nat) (p : PendingList) (h : Nat → Bool),
      (∀ j, h j = true ↔ j ∈ KeysOf p) →
      (KeysOf p).Nodup → (∀ j ∈ KeysOf p, j < 256) → p.length ≤ 16 →
      (∀ m ∈ ks, m < 256) →
      (sched_keys ks p h now delay).dropped = false →
      (∀ j, (sched_keys ks p h now delay).held j = (if j ∈ ks then true else h j)) ∧
      (∀ j, (sched_keys ks p h now delay).held j = true ↔
          j ∈ KeysOf (sched_keys ks p h now delay).pending) ∧
      (KeysOf (sched_keys ks p h now delay).pending).Nodup ∧
      (∀ j ∈ KeysOf (sched_keys ks p h now delay).pending, j < 256) ∧
      (sched_keys ks p h now delay).pending.length ≤ 16 := by
  intro ks
  induction ks with
  | nil =>
    intro p h hB hC hD hlen _ _
    exact ⟨fun j => by simp [sched_keys], hB, hC, hD, hlen⟩
  | cons m rest ih =>
    intro p h hB hC hD hlen hks hnd
    simp only [sched_keys] at hnd ⊢
    have hdp : (sched_key_release p h m now delay).dropped = false := by
      rcases Bool.or_eq_false_iff.mp hnd with ⟨h1, _⟩
      exact h1
    have hdr : (sched_keys rest (sched_key_release p h m now delay).pending
        (sched_key_release p h m now delay).held now delay).dropped = false := by
      rcases Bool.or_eq_false_iff.mp hnd with ⟨_, h2⟩
      exact h2
    have hm256 : m < 256 := hks m (List.mem_cons_self _ _)
    have hstep := sched_ok p h m now delay hB hC hD hlen hm256 hdp
    have hrec := ih (sched_key_release p h m now delay).pending
      (sched_key_release p h m now delay).held hstep.2.1 hstep.2.2.1 hstep.2.2.2.1
      hstep.2.2.2.2 (fun x hx => hks x (List.mem_cons.mpr (Or.inr hx))) hdr
    refine ⟨?_, hrec.2.1, hrec.2.2.1, hrec.2.2.2.1, hrec.2.2.2.2⟩
    intro j
    rw [hrec.1 j, hstep.1 j]
    by_cases h1 : j ∈ rest
    · simp [h1]
    · by_cases h2 : j = m <;> simp [h1, h2]

theorem csi_check_no_removal (key now : Nat) :
    ∀ l : PendingList, (csi_check key now l).2 = false → (csi_check key now l).1 = l := by
  intro l
  induction l with
  | nil => intro _; rfl
  | cons e rest ih =>
    intro hf
    rw [csi_check] at hf ⊢
    by_cases he : e.1 = key
    · rw [if_pos he] at hf ⊢
      by_cases hc : 25 < (e.2 : Int) - (now : Int)
      · rw [if_pos hc] at hf; cases hf
      · rw [if_neg hc]
    · rw [if_neg he] at hf ⊢
      simp only at hf ⊢
      rw [ih hf]

theorem csi_check_removal (key now : Nat) :
    ∀ l : PendingList, (csi_check key now l).2 = true →
      ∃ p d q, l = p ++ (key, d) :: q ∧ key ∉ KeysOf p ∧
        (csi_check key now l).1 = p ++ q := by
  intro l
  induction l with
  | nil => intro hf; cases hf
  | cons e rest ih =>
    intro hf
    rw [csi_check] at hf
    by_cases he : e.1 = key
    · rw [if_pos he] at hf
      by_cases hc : 25 < (e.2 : Int) - (now : Int)
      · refine ⟨[], e.2, rest, ?_, by simp [KeysOf], ?_⟩
        · simp [← he]
        · rw [csi_check, if_pos he, if_pos hc]
          simp
      · rw [if_neg hc] at hf; cases hf
    · rw [if_neg he] at hf
      simp only at hf
      rcases ih hf with ⟨p, d, q, hl, hnp, hres⟩
      refine ⟨e :: p, d, q, by rw [hl]; rfl, ?_, ?_⟩
      · rw [keysOf_cons]
        intro hmem
        rcases List.mem_cons.mp hmem with h1 | h1
        · exact he h1.symm
        · exact hnp h1
      · rw [csi_check, if_neg he]
        simp only
        rw [hres]
        rfl

theorem keys_unique_entry (l : PendingList) (hC : (KeysOf l).Nodup)
    (e1 e2 : Nat × Nat) (h1 : e1 ∈ l) (h2 : e2 ∈ l) (hk : e1.1 = e2.1) :
    e1 = e2 :=
  List.inj_on_of_nodup_map hC h1 h2 hk

theorem process_pending_inv (s : InputState) (eng : Nat → Bool) (now : Nat)
    (hI : HeldInv s eng) :
    HeldInv (process_pending s now).1 (applyEvents eng (process_pending s now).2) := by
  obtain ⟨hA, hB, hC, hD, hlen⟩ := hI
  have hengj : ∀ j, applyEvents eng (process_pending s now).2 j =
      (if j ∈ KeysOf (s.pending.filter (fun e => decide (e.2 ≤ now))) then false
        else eng j) := by
    intro j
    simp only [process_pending]
    rw [processPR_events, applyEvents_ups, keysOf_reverse]
    simp only [List.mem_reverse]
  have hexp_live : ∀ j, j ∈ KeysOf (s.pending.filter (fun e => decide (e.2 ≤ now))) →
      j ∉ KeysOf (s.pending.filter (fun e => decide (now < e.2))) := by
    intro j hje hjl
    rcases List.mem_map.mp hje with ⟨e1, he1, hk1⟩
    rcases List.mem_map.mp hjl with ⟨e2, he2, hk2⟩
    have hd1 : e1.2 ≤ now := by simpa using List.of_mem_filter he1
    have hd2 : now < e2.2 := by simpa using List.of_mem_filter he2
    have : e1 = e2 := keys_unique_entry s.pending hC e1 e2
      (List.mem_of_mem_filter he1) (List.mem_of_mem_filter he2)
      (hk1.trans hk2.symm)
    rw [this] at hd1
    omega
  have hheldj : ∀ j, (process_pending s now).1.held j =
      (if j ∈ KeysOf (s.pending.filter (fun e => decide (e.2 ≤ now))) then false
        else s.held j) := by
    intro j
    simp only [process_pending]
    by_cases hj : j ∈ KeysOf (s.pending.filter (fun e => decide (e.2 ≤ now)))
    · rw [if_pos hj]
      rcases List.mem_map.mp hj with ⟨e, hef, hej⟩
      have hel : e ∈ s.pending := List.mem_of_mem_filter hef
      have hexp : e.2 ≤ now := by simpa using List.of_mem_filter hef
      exact processPR_held_expired now s.pending s.held j
        (hD j (hej ▸ mem_keysOf_of_entry s.pending e hel)) ⟨e, hel, hej, hexp⟩
    · rw [if_neg hj]
      apply processPR_held_live
      intro e he hej
      by_contra hlt
      push_neg at hlt
      exact hj (List.mem_map.mpr ⟨e, List.mem_filter.mpr ⟨he, by simpa using hlt⟩, hej⟩)
  have hpendeq : (process_pending s now).1.pending =
      s.pending.filter (fun e => decide (now < e.2)) := by
    simp only [process_pending]
    exact processPR_pending now s.pending s.held
  refine ⟨?_, ?_, ?_, ?_, ?_⟩
  · intro j
    rw [hheldj j, hengj j]
    by_cases hj : j ∈ KeysOf (s.pending.filter (fun e => decide (e.2 ≤ now)))
    · simp [hj]
    · simp [hj, hA j]
  · intro j
    rw [hheldj j, hpendeq]
    by_cases hj : j ∈ KeysOf (s.pending.filter (fun e => decide (e.2 ≤ now)))
    · simp only [if_pos hj]
      constructor
      · intro hc; cases hc
      · intro hc; exact absurd hc (hexp_live j hj)
    · simp only [if_neg hj]
      rw [hB j]
      constructor
      · intro hm
        rcases List.mem_map.mp hm with ⟨e, hel, hej⟩
        have hlive : now < e.2 := by
          by_contra hlt
          push_neg at hlt
          exact hj (List.mem_map.mpr ⟨e, List.mem_filter.mpr ⟨hel, by simpa using hlt⟩, hej⟩)
        exact List.mem_map.mpr ⟨e, List.mem_filter.mpr ⟨hel, by simpa using hlive⟩, hej⟩
      · intro hm
        rcases List.mem_map.mp hm with ⟨e, hef, hej⟩
        exact List.mem_map.mpr ⟨e, List.mem_of_mem_filter hef, hej⟩
  · rw [hpendeq]
    exact List.Nodup.sublist (List.Sublist.map Prod.fst (List.filter_sublist s.pending)) hC
  · intro j hj
    rw [hpendeq] at hj
    rcases List.mem_map.mp hj with ⟨e, hef, hej⟩
    exact hD j (List.mem_map.mpr ⟨e, List.mem_of_mem_filter hef, hej⟩)
  · rw [hpendeq]
    exact le_trans (List.length_filter_le _ _) hlen

theorem markKeyHeld_eval (h : Nat → Bool) (key j : Nat) (hk : key < 256) :
    markKeyHeld h key j = (if j = key then true else h j) := by
  rw [markKeyHeld, if_pos hk]

theorem markKeyReleased_eval (h : Nat → Bool) (key j : Nat) (hk : key < 256) :
    markKeyReleased h key j = (if j = key then false else h j) := by
  rw [markKeyReleased, if_pos hk]

theorem heldInv_of_eq (s s' : InputState) (eng : Nat → Bool)
    (hp : s'.pending = s.pending) (hh : s'.held = s.held) (h : HeldInv s eng) :
    HeldInv s' eng := by
  obtain ⟨hA, hB, hC, hD, hlen⟩ := h
  exact ⟨fun j => by rw [hh]; exact hA j, fun j => by rw [hh, hp]; exact hB j,
    by rw [hp]; exact hC, fun j hj => hD j (by rwa [hp] at hj),
    by rw [hp]; exact hlen⟩

theorem heldInv_mono {s s' : InputState} {eng : Nat → Bool} (h : HeldInv s eng)
    (hp : s'.pending = s.pending) (hh : s'.held = s.held) : HeldInv s' eng :=
  heldInv_of_eq s s' eng hp hh h

/-- Core of every key-press dispatch: a key_down (or nothing, when the
engine already has the key down) followed by a non-dropped scheduling
preserves the invariant. -/
theorem press_core_inv (s : InputState) (eng : Nat → Bool) (k now delay : Nat)
    (hI : HeldInv s eng) (hk : k < 256)
    (hnd : (sched_key_release s.pending s.held k now delay).dropped = false)
    (eng2 : Nat → Bool)
    (heng2 : ∀ j, eng2 j = (if j = k then true else eng j)) :
    HeldInv {s with
        pending := (sched_key_release s.pending s.held k now delay).pending,
        held := (sched_key_release s.pending s.held k now delay).held} eng2 := by
  obtain ⟨hA, hB, hC, hD, hlen⟩ := hI
  have hstep := sched_ok s.pending s.held k now delay hB hC hD hlen hk hnd
  refine ⟨?_, ?_, hstep.2.2.1, hstep.2.2.2.1, hstep.2.2.2.2⟩
  · intro j
    show (sched_key_release s.pending s.held k now delay).held j = eng2 j
    rw [hstep.1 j, heng2 j]
    by_cases hj : j = k
    · simp [hj]
    · simp [hj, hA j]
  · intro j
    exact hstep.2.1 j

theorem ascii_key_inv (s : InputState) (eng : Nat → Bool) (ch now : Nat)
    (hI : HeldInv s eng) (hch : ch < 256)
    (hnd : (ascii_key s ch now).2.2 = false) :
    HeldInv (ascii_key s ch now).1 (applyEvents eng (ascii_key s ch now).2.1) := by
  obtain ⟨k, hgk⟩ : ∃ k, asciiDoomKey ch = k := ⟨_, rfl⟩
  have hk : k < 256 := hgk ▸ asciiDoomKey_lt ch hch
  simp only [ascii_key, hgk] at hnd ⊢
  by_cases hh : isKeyHeld s.held k = true
  · simp only [hh, if_true]
    have hsk : s.held k = true := by
      rw [isKeyHeld, if_pos hk] at hh; exact hh
    exact press_core_inv s eng k now 50 hI hk hnd eng
      (fun j => by
        by_cases hj : j = k
        · subst hj; simp [← hI.held_eq_eng j, hsk]
        · simp [hj])
  · simp only [hh]
    simp only [Bool.false_eq_true, if_false]
    exact press_core_inv s eng k now 50 hI hk hnd
      (applyEvents eng [EngineCall.keyDown k])
      (fun j => by simp [applyEvents, engSet])

theorem ss3_key_inv (s : InputState) (eng : Nat → Bool) (ch now : Nat)
    (hI : HeldInv s eng)
    (hnd : (ss3_key s ch now).2.2 = false) :
    HeldInv (ss3_key s ch now).1 (applyEvents eng (ss3_key s ch now).2.1) := by
  obtain ⟨k, hgk⟩ : ∃ k, ss3DoomKey ch = k := ⟨_, rfl⟩
  have hk : k < 256 := hgk ▸ ss3DoomKey_lt ch
  simp only [ss3_key, hgk] at hnd ⊢
  by_cases hk0 : k = 0
  · simp only [if_pos hk0] at hnd ⊢
    simpa [applyEvents] using hI
  · simp only [if_neg hk0] at hnd ⊢
    by_cases hh : isKeyHeld s.held k = true
    · simp only [hh, if_true]
      have hsk : s.held k = true := by
        rw [isKeyHeld, if_pos hk] at hh; exact hh
      exact press_core_inv s eng k now 50 hI hk hnd eng
        (fun j => by
          by_cases hj : j = k
          · subst hj; simp [← hI.held_eq_eng j, hsk]
          · simp [hj])
    · simp only [hh]
      simp only [Bool.false_eq_true, if_false]
      exact press_core_inv s eng k now 50 hI hk hnd
        (applyEvents eng [EngineCall.keyDown k])
        (fun j => by simp [applyEvents, engSet])

theorem mouse_buttons_inv (s1 : InputState) (eng : Nat → Bool) (cb final now : Nat)
    (hI : HeldInv s1 eng)
    (hnd : (mouse_buttons_step s1 cb final now).2.2 = false) :
    HeldInv (mouse_buttons_step s1 cb final now).1
      (applyEvents eng (mouse_buttons_step s1 cb final now).2.1) := by
  simp only [mouse_buttons_step] at hnd ⊢
  by_cases h1 : ¬ (cb / 32 % 2 = 1) ∧ cb % 4 < 3
  · rw [if_pos h1] at hnd ⊢
    by_cases h2 : (final = 77) ∧ mouse_button s1.mouse (cb % 4) = false
    · rw [if_pos h2] at hnd ⊢
      obtain ⟨dk, hdk⟩ : ∃ dk, (if cb % 4 = 0 then 157 else if cb % 4 = 2 then 32
          else if cb % 4 = 1 then 182 else 0) = dk := ⟨_, rfl⟩
      rw [hdk] at hnd ⊢
      have hdk256 : dk < 256 := by rw [← hdk]; split_ifs <;> norm_num
      by_cases h4 : dk ≠ 0
      · rw [if_pos h4] at hnd ⊢
        have hI2 : HeldInv {s1 with mouse := set_mouse_button s1.mouse (cb % 4) true} eng :=
          heldInv_of_eq s1 _ eng rfl rfl hI
        exact press_core_inv _ eng dk now 50 hI2 hdk256 hnd
          (applyEvents eng [EngineCall.keyDown dk])
          (fun j => by simp [applyEvents, engSet])
      · rw [if_neg h4] at hnd ⊢
        simpa [applyEvents] using heldInv_of_eq s1
          {s1 with mouse := set_mouse_button s1.mouse (cb % 4) true} eng rfl rfl hI
    · rw [if_neg h2] at hnd ⊢
      by_cases h3 : (¬ final = 77) ∧ mouse_button s1.mouse (cb % 4) = true
      · rw [if_pos h3] at hnd ⊢
        simpa [applyEvents] using heldInv_of_eq s1
          {s1 with mouse := set_mouse_button s1.mouse (cb % 4) false} eng rfl rfl hI
      · rw [if_neg h3] at hnd ⊢
        simpa [applyEvents] using hI
  · rw [if_neg h1] at hnd ⊢
    simpa [applyEvents] using hI

theorem parse_mouse_sgr_inv (s : InputState) (eng : Nat → Bool) (final now : Nat)
    (hI : HeldInv s eng)
    (hnd : (parse_mouse_sgr s final now).2.2 = false) :
    HeldInv (parse_mouse_sgr s final now).1
      (applyEvents eng (parse_mouse_sgr s final now).2.1) := by
  simp only [parse_mouse_sgr] at hnd ⊢
  by_cases h1 : s.parms.length < 3
  · rw [if_pos h1] at hnd ⊢
    simpa [applyEvents] using hI
  · rw [if_neg h1] at hnd ⊢
    by_cases h2 : s.parms.getD 0 0 / 64 % 2 = 1
    · rw [if_pos h2] at hnd ⊢
      simpa [applyEvents] using hI
    · rw [if_neg h2] at hnd ⊢
      by_cases h3 : s.mouse.tracking = false
      · rw [if_pos h3] at hnd ⊢
        exact heldInv_of_eq s _ eng rfl rfl hI
      · rw [if_neg h3] at hnd ⊢
        by_cases hmv : decide (clampDelta ((s.parms.getD 1 0 : Int) - s.mouse.last_x)
              * 10 ≠ 0 ∨
            clampDelta ((s.parms.getD 2 0 : Int) - s.mouse.last_y) * 10 ≠ 0) = true
        · simp only [hmv, if_true] at hnd ⊢
          rw [applyEvents_append]
          exact mouse_buttons_inv _ eng _ final now
            (heldInv_of_eq s _ eng rfl rfl hI) hnd
        · simp only [hmv] at hnd ⊢
          simp only [Bool.false_eq_true, if_false] at hnd ⊢
          rw [applyEvents_append]
          exact mouse_buttons_inv s eng _ final now hI hnd

theorem csi_key_inv (s : InputState) (eng : Nat → Bool) (ch parm1 parm2 now : Nat)
    (hI : HeldInv s eng)
    (hnd : (csi_key s ch parm1 parm2 now).2.2 = false) :
    HeldInv (csi_key s ch parm1 parm2 now).1
      (applyEvents eng (csi_key s ch parm1 parm2 now).2.1) := by
  obtain ⟨k, hgk⟩ : ∃ k, csiDoomKey ch parm1 = k := ⟨_, rfl⟩
  have hk256 : k < 256 := hgk ▸ csiDoomKey_lt ch parm1
  have hmod256 : ∀ m ∈ modifierKeys parm2, m < 256 := by
    intro m hm
    rcases modifierKeys_mem parm2 m hm with h | h | h <;> omega
  have hnmod := csiDoomKey_not_mod ch parm1
  have hmods : k ∉ modifierKeys parm2 := by
    intro hmem
    rcases modifierKeys_mem parm2 k hmem with h | h | h
    · exact hnmod.1 (hgk.trans h)
    · exact hnmod.2.1 (hgk.trans h)
    · exact hnmod.2.2 (hgk.trans h)
  simp only [csi_key, hgk] at hnd ⊢
  by_cases hk0 : k = 0
  · rw [if_pos hk0] at hnd ⊢
    simpa [applyEvents] using hI
  rw [if_neg hk0] at hnd ⊢
  obtain ⟨delay, hdel⟩ : ∃ d2,
      (if k = 173 ∨ k = 175 ∨ k = 172 ∨ k = 174 then 80 else 50) = d2 := ⟨_, rfl⟩
  rw [hdel] at hnd ⊢
  by_cases hh : isKeyHeld s.held k = true
  · simp only [hh, if_true] at hnd ⊢
    have hsk : s.held k = true := by rw [isKeyHeld, if_pos hk256] at hh; exact hh
    cases hn : (csi_check k now s.pending).2 with
    | false =>
      have hid := csi_check_no_removal k now s.pending hn
      simp only [hn, hid, Bool.not_true, Bool.false_or, Bool.false_eq_true, if_false,
        Bool.or_false] at hnd ⊢
      exact press_core_inv s eng k now delay hI hk256 hnd eng
        (fun j => by
          by_cases hj : j = k
          · subst hj; simp [← hI.held_eq_eng j, hsk]
          · simp [hj])
    | true =>
      obtain ⟨p, d, q, hsp, hkp, hres⟩ := csi_check_removal k now s.pending hn
      simp only [hn, hres, Bool.not_true, Bool.false_or, if_true] at hnd ⊢
      rcases Bool.or_eq_false_iff.mp hnd with ⟨hnd1, hnd2⟩
      obtain ⟨hA, hB, hC, hD, hlen⟩ := hI
      have hCsplit : (KeysOf p ++ k :: KeysOf q).Nodup := by
        have : KeysOf s.pending = KeysOf p ++ k :: KeysOf q := by
          rw [hsp]; simp [KeysOf]
        rwa [this] at hC
      rcases List.nodup_append.mp hCsplit with ⟨hCp, hCkq, hdisj⟩
      rcases List.nodup_cons.mp hCkq with ⟨hkq, hCq⟩
      have hkpq : k ∉ KeysOf (p ++ q) := by
        rw [keysOf_append]
        intro hmem
        rcases List.mem_append.mp hmem with h1 | h1
        · exact hkp h1
        · exact hkq h1
      have hBpq : ∀ j, markKeyReleased s.held k j = true ↔ j ∈ KeysOf (p ++ q) := by
        intro j
        rw [markKeyReleased_eval s.held k j hk256]
        by_cases hj : j = k
        · subst hj
          simp [hkpq]
        · rw [if_neg hj, hB j, hsp]
          rw [keysOf_append, keysOf_append, keysOf_cons]
          constructor
          · intro hm
            rcases List.mem_append.mp hm with h1 | h1
            · exact List.mem_append.mpr (Or.inl h1)
            · rcases List.mem_cons.mp h1 with h2 | h2
              · exact absurd h2 hj
              · exact List.mem_append.mpr (Or.inr h2)
          · intro hm
            rcases List.mem_append.mp hm with h1 | h1
            · exact List.mem_append.mpr (Or.inl h1)
            · exact List.mem_append.mpr (Or.inr (List.mem_cons.mpr (Or.inr h1)))
      have hCpq : (KeysOf (p ++ q)).Nodup := by
        rw [keysOf_append]
        refine List.nodup_append.mpr ⟨hCp, hCq, ?_⟩
        intro a ha hb
        exact hdisj ha (List.mem_cons.mpr (Or.inr hb))
      have hDpq : ∀ j ∈ KeysOf (p ++ q), j < 256 := by
        intro j hj
        apply hD j
        rw [hsp, keysOf_append, keysOf_cons]
        rw [keysOf_append] at hj
        rcases List.mem_append.mp hj with h1 | h1
        · exact List.mem_append.mpr (Or.inl h1)
        · exact List.mem_append.mpr (Or.inr (List.mem_cons.mpr (Or.inr h1)))
      have hlenpq : (p ++ q).length ≤ 16 := by
        have : s.pending.length = p.length + 1 + q.length := by
          rw [hsp]; simp [List.length_append]; omega
        rw [List.length_append]
        omega
      have hstep := sched_ok (p ++ q) (markKeyReleased s.held k) k now delay
        hBpq hCpq hDpq hlenpq hk256 hnd1
      have hrec := sched_keys_ok now delay (modifierKeys parm2) _ _
        hstep.2.1 hstep.2.2.1 hstep.2.2.2.1 hstep.2.2.2.2 hmod256 hnd2
      refine ⟨?_, hrec.2.1, hrec.2.2.1, hrec.2.2.2.1, hrec.2.2.2.2⟩
      intro j
      show (sched_keys (modifierKeys parm2)
          (sched_key_release (p ++ q) (markKeyReleased s.held k) k now delay).pending
          (sched_key_release (p ++ q) (markKeyReleased s.held k) k now delay).held
          now delay).held j = _
      rw [hrec.1 j, hstep.1 j]
      rw [applyEvents_append]
      have hups : applyEvents eng [EngineCall.keyUp k] = engSet eng k false := rfl
      have hlast : ∀ (x : Nat → Bool) (j2 : Nat),
          applyEvents x [EngineCall.keyDown k] j2 = (if j2 = k then true else x j2) := by
        intro x j2; simp [applyEvents, engSet]
      rw [hups, applyEvents_append, hlast, applyEvents_downs]
      by_cases hj : j = k
      · subst hj
        simp [hmods]
      · by_cases hjm : j ∈ modifierKeys parm2
        · simp [hjm, hj]
        · simp [hjm, hj, engSet, markKeyReleased_eval s.held k j hk256, hA j]
  · have hhb : isKeyHeld s.held k = false := by
      revert hh; cases isKeyHeld s.held k <;> simp
    simp only [hhb, Bool.false_eq_true, if_false, Bool.not_false, Bool.true_or,
      if_true] at hnd ⊢
    rcases Bool.or_eq_false_iff.mp hnd with ⟨hnd1, hnd2⟩
    obtain ⟨hA, hB, hC, hD, hlen⟩ := hI
    have hstep := sched_ok s.pending s.held k now delay hB hC hD hlen hk256 hnd1
    have hrec := sched_keys_ok now delay (modifierKeys parm2) _ _
      hstep.2.1 hstep.2.2.1 hstep.2.2.2.1 hstep.2.2.2.2 hmod256 hnd2
    refine ⟨?_, hrec.2.1, hrec.2.2.1, hrec.2.2.2.1, hrec.2.2.2.2⟩
    intro j
    show (sched_keys (modifierKeys parm2)
        (sched_key_release s.pending s.held k now delay).pending
        (sched_key_release s.pending s.held k now delay).held
        now delay).held j = _
    rw [hrec.1 j, hstep.1 j]
    have hlast : ∀ (x : Nat → Bool) (j2 : Nat),
        applyEvents x [EngineCall.keyDown k] j2 = (if j2 = k then true else x j2) := by
      intro x j2; simp [applyEvents, engSet]
    rw [applyEvents_append, applyEvents_append, hlast, applyEvents_downs]
    by_cases hj : j = k
    · subst hj
      simp [hmods]
    · by_cases hjm : j ∈ modifierKeys parm2
      · simp [hjm, hj]
      · simp [applyEvents, hjm, hj, hA j]

theorem parse_char_inv (s : InputState) (eng : Nat → Bool) (ch now : Nat)
    (hI : HeldInv s eng) (hch : ch < 256)
    (hnd : (parse_char s ch now).2.2 = false) :
    HeldInv (parse_char s ch now).1 (applyEvents eng (parse_char s ch now).2.1) := by
  by_cases h3 : ch = 3
  · simp only [parse_char, if_pos h3] at hnd ⊢
    exact heldInv_mono hI rfl rfl
  simp only [parse_char, if_neg h3] at hnd ⊢
  by_cases h27 : ch = 27
  · rw [if_pos h27] at hnd ⊢
    by_cases hesc : s.pstate = ParserMode.esc
    · rw [if_pos hesc] at hnd ⊢
      exact heldInv_mono (ascii_key_inv s eng 27 now hI (by norm_num) hnd) rfl rfl
    · rw [if_neg hesc] at hnd ⊢
      exact heldInv_mono hI rfl rfl
  rw [if_neg h27] at hnd ⊢
  obtain ⟨m, hm⟩ : ∃ m, s.pstate = m := ⟨_, rfl⟩
  rw [hm] at hnd ⊢
  cases m with
  | ground =>
    exact ascii_key_inv s eng ch now hI hch hnd
  | esc =>
    dsimp only at hnd ⊢
    by_cases hO : ch = 79
    · rw [if_pos hO] at hnd ⊢
      exact heldInv_mono hI rfl rfl
    rw [if_neg hO] at hnd ⊢
    by_cases hBr : ch = 91
    · rw [if_pos hBr] at hnd ⊢
      exact heldInv_mono hI rfl rfl
    rw [if_neg hBr] at hnd ⊢
    have hI1 : HeldInv {(ascii_key s 27 now).1 with pstate := ParserMode.ground}
        (applyEvents eng (ascii_key s 27 now).2.1) := by
      by_cases hd1 : (ascii_key s 27 now).2.2 = false
      · exact heldInv_mono (ascii_key_inv s eng 27 now hI (by norm_num) hd1) rfl rfl
      · exfalso
        by_cases hpr : 32 ≤ ch ∧ ch < 127
        · rw [if_pos hpr] at hnd
          rcases Bool.or_eq_false_iff.mp hnd with ⟨ha, _⟩
          exact hd1 ha
        · rw [if_neg hpr] at hnd
          exact hd1 hnd
    by_cases hpr : 32 ≤ ch ∧ ch < 127
    · rw [if_pos hpr] at hnd ⊢
      rcases Bool.or_eq_false_iff.mp hnd with ⟨_, hb⟩
      rw [applyEvents_append]
      exact ascii_key_inv _ _ ch now hI1 hch hb
    · rw [if_neg hpr] at hnd ⊢
      exact hI1
  | ss3 =>
    exact heldInv_mono (ss3_key_inv s eng ch now hI hnd) rfl rfl
  | csi =>
    dsimp only at hnd ⊢
    by_cases hpre : ch = 63 ∨ ch = 62 ∨ ch = 60
    · rw [if_pos hpre] at hnd ⊢
      exact heldInv_mono hI rfl rfl
    rw [if_neg hpre] at hnd ⊢
    by_cases hdig : 48 ≤ ch ∧ ch ≤ 57
    · rw [if_pos hdig] at hnd ⊢
      exact heldInv_mono hI rfl rfl
    rw [if_neg hdig] at hnd ⊢
    by_cases hsemi : ch = 59
    · rw [if_pos hsemi] at hnd ⊢
      exact heldInv_mono hI rfl rfl
    rw [if_neg hsemi] at hnd ⊢
    obtain ⟨ps, hps⟩ : ∃ ps,
        (if s.parms.length < 32 then s.parms ++ [s.parm] else s.parms) = ps := ⟨_, rfl⟩
    rw [hps] at hnd ⊢
    have hIs1 : HeldInv {s with pstate := ParserMode.csi, parms := ps} eng :=
      heldInv_mono hI rfl rfl
    by_cases hda : ch = 99 ∧ s.parm_lead = 63
    · rw [if_pos hda] at hnd ⊢
      exact heldInv_mono hI rfl rfl
    rw [if_neg hda] at hnd ⊢
    by_cases ht : ch = 116
    · rw [if_pos ht] at hnd ⊢
      split_ifs <;> exact heldInv_mono hI rfl rfl
    rw [if_neg ht] at hnd ⊢
    by_cases hR : ch = 82
    · rw [if_pos hR] at hnd ⊢
      split_ifs <;> exact heldInv_mono hI rfl rfl
    rw [if_neg hR] at hnd ⊢
    by_cases hMm : ch = 77 ∨ ch = 109
    · rw [if_pos hMm] at hnd ⊢
      by_cases hlt : s.parm_lead = 60
      · rw [if_pos hlt] at hnd ⊢
        exact heldInv_mono (parse_mouse_sgr_inv _ eng ch now hIs1 hnd) rfl rfl
      · rw [if_neg hlt] at hnd ⊢
        exact heldInv_mono hI rfl rfl
    rw [if_neg hMm] at hnd ⊢
    exact heldInv_mono (csi_key_inv _ eng ch _ _ now hIs1 hnd) rfl rfl

/-- Every state reachable without a dropped scheduling request satisfies
the held/pending/engine invariant. -/
theorem reachesOK_inv : ∀ (s : InputState) (eng : Nat → Bool),
    ReachesOK s eng → HeldInv s eng := by
  intro s eng h
  induction h with
  | init =>
    exact ⟨fun j => rfl, fun j => by simp [initInput, KeysOf],
      by simp [initInput, KeysOf], by simp [initInput, KeysOf],
      by simp [initInput]⟩
  | parse s eng ch now h hch hnd ih => exact parse_char_inv s eng ch now ih hch hnd
  | process s eng now h ih => exact process_pending_inv s eng now ih
  | escTimeout s eng now h hesc hnd ih =>
    exact heldInv_mono (ascii_key_inv s eng 27 now ih (by norm_num) hnd) rfl rfl

/-- Folding parse_char over in-range bytes preserves reachability. -/
theorem reaches_run_bytes (now : Nat) :
    ∀ (bs : List Nat) (s : InputState) (eng : Nat → Bool),
      (∀ b ∈ bs, b < 256) → Reaches s eng →
      Reaches (run_bytes now s eng bs).1 (run_bytes now s eng bs).2 := by
  intro bs
  induction bs with
  | nil => intro s eng _ h; exact h
  | cons c cs ih =>
    intro s eng hb h
    simp only [run_bytes]
    exact ih _ _ (fun b hbm => hb b (List.mem_cons_of_mem c hbm))
      (Reaches.parse s eng c now h (hb c (List.mem_cons_self c cs)))

/-- C4: on every run of the input subsystem in which no release-scheduling
request was silently dropped by a full 16-entry pending list, the
held-keys bitmap tracks the engine view exactly: a key's bit is set if
and only if the engine has received a key_down for it with no matching
key_up yet.  (Runs that do overflow the pending list break the
invariant: see the accompanying counterexample.) -/
theorem c4_held_bitmap_invariant (s : InputState) (eng : Nat → Bool)
    (h : ReachesOK s eng) (k : Nat) : s.held k = eng k :=
  (reachesOK_inv s eng h).held_eq_eng k

theorem c4_witness :
    (parse_char initInput 97 0).1.held 97 =
      applyEvents (fun _ => false) (parse_char initInput 97 0).2.1 97 :=
  c4_held_bitmap_invariant _ _
    (ReachesOK.parse initInput (fun _ => false) 97 0 ReachesOK.init
      (by decide) (by decide)) 97

/-- After seventeen distinct literal keys the pending-release list is
full: the seventeenth key_down (key code 115) was sent to the engine but
its bitmap bit was never set, so the bitmap and the engine view disagree
in a reachable state. -/
theorem c4_counterexample :
    Reaches overflowRun.1 overflowRun.2 ∧
      overflowRun.1.held 115 = false ∧ overflowRun.2 115 = true :=
  ⟨reaches_run_bytes 0 overflowBytes initInput (fun _ => false)
      (by decide) Reaches.init,
    by decide, by decide⟩

theorem chunkList_ne_nil (l : List Char) (h : l ≠ []) : chunkList l ≠ [] := by
  rw [chunkList, dif_neg h]
  by_cases hc : 4096 < l.length
  · rw [if_pos hc]; simp
  · rw [if_neg hc]; simp

theorem chunkList_flatten : ∀ (n : Nat) (l : List Char), l.length ≤ n →
    (chunkList l).flatten = l := by
  intro n
  induction n with
  | zero =>
    intro l h
    have h0 : l = [] := List.eq_nil_of_length_eq_zero (Nat.le_zero.mp h)
    subst h0
    rw [chunkList]
    simp
  | succ n ih =>
    intro l h
    by_cases hl : l = []
    · subst hl; rw [chunkList]; simp
    · rw [chunkList, dif_neg hl]
      by_cases hc : 4096 < l.length
      · rw [if_pos hc]
        simp only [List.flatten_cons]
        rw [ih (l.drop 4096) (by simp; omega)]
        exact List.take_append_drop 4096 l
      · rw [if_neg hc]; simp

theorem chunkList_dropLast_lengths : ∀ (n : Nat) (l : List Char), l.length ≤ n →
    ∀ c ∈ (chunkList l).dropLast, c.length = 4096 := by
  intro n
  induction n with
  | zero =>
    intro l h c hc
    have h0 : l = [] := List.eq_nil_of_length_eq_zero (Nat.le_zero.mp h)
    subst h0
    rw [chunkList] at hc
    simp at hc
  | succ n ih =>
    intro l h c hc
    by_cases hl : l = []
    · subst hl; rw [chunkList] at hc; simp at hc
    · rw [chunkList, dif_neg hl] at hc
      by_cases hcl : 4096 < l.length
      · rw [if_pos hcl] at hc
        have hne : chunkList (l.drop 4096) ≠ [] :=
          chunkList_ne_nil _ (by simp; omega)
        rw [List.dropLast_cons_of_ne_nil hne] at hc
        rcases List.mem_cons.mp hc with h1 | h1
        · subst h1; simp; omega
        · exact ih (l.drop 4096) (by simp; omega) c h1
      · rw [if_neg hcl] at hc; simp at hc

theorem chunkList_mem_bounds : ∀ (n : Nat) (l : List Char), l.length ≤ n →
    ∀ c ∈ chunkList l, c.length ≤ 4096 ∧ c ≠ [] := by
  intro n
  induction n with
  | zero =>
    intro l h c hc
    have h0 : l = [] := List.eq_nil_of_length_eq_zero (Nat.le_zero.mp h)
    subst h0
    rw [chunkList] at hc
    simp at hc
  | succ n ih =>
    intro l h c hc
    by_cases hl : l = []
    · subst hl; rw [chunkList] at hc; simp at hc
    · rw [chunkList, dif_neg hl] at hc
      by_cases hcl : 4096 < l.length
      · rw [if_pos hcl] at hc
        rcases List.mem_cons.mp hc with h1 | h1
        · subst h1
          constructor
          · simp
          · have : (l.take 4096).length = 4096 := by simp; omega
            intro hn
            rw [hn] at this
            simp at this
        · exact ih (l.drop 4096) (by simp; omega) c h1
      · rw [if_neg hcl] at hc
        simp at hc
        subst hc
        exact ⟨by omega, hl⟩

theorem chunkList_map_length : ∀ (n : Nat) (l : List Char), l.length ≤ n →
    (chunkList l).map List.length = chunkSizes l.length := by
  intro n
  induction n with
  | zero =>
    intro l h
    have h0 : l = [] := List.eq_nil_of_length_eq_zero (Nat.le_zero.mp h)
    subst h0
    rw [chunkList, chunkSizes]
    simp
  | succ n ih =>
    intro l h
    by_cases hl : l = []
    · subst hl; rw [chunkList, chunkSizes]; simp
    · have hlp : 0 < l.length := List.length_pos.mpr hl
      rw [chunkList, dif_neg hl]
      by_cases hcl : 4096 < l.length
      · rw [if_pos hcl, chunkSizes, if_neg (by omega), if_pos hcl]
        simp only [List.map_cons]
        rw [ih (l.drop 4096) (by simp; omega)]
        simp
        omega
      · rw [if_neg hcl, chunkSizes, if_neg (by omega), if_neg hcl]
        simp

theorem encode_chunks_ok_shape (fn kid sc sr cap : Nat) :
    ∀ (n : Nat) (rest : List Char), rest.length ≤ n →
      ∀ (isFirst : Bool) (buf out : List Char),
      encode_chunks fn kid sc sr cap rest isFirst buf = Except.ok out →
      out = buf ++ wrapChunks fn kid sc sr isFirst (chunkList rest) := by
  intro n
  induction n with
  | zero =>
    intro rest hlen isFirst buf out h
    have h0 : rest = [] := List.eq_nil_of_length_eq_zero (Nat.le_zero.mp hlen)
    subst h0
    rw [encode_chunks] at h
    simp only [dite_eq_ite, if_true, Except.ok.injEq] at h
    subst h
    rw [chunkList]
    simp [wrapChunks]
  | succ n ih =>
    intro rest hlen isFirst buf out h
    by_cases hr : rest = []
    · subst hr
      rw [encode_chunks] at h
      simp only [dite_eq_ite, if_true, Except.ok.injEq] at h
      subst h
      rw [chunkList]
      simp [wrapChunks]
    · rw [encode_chunks, dif_neg hr] at h
      by_cases hc : 4096 < rest.length
      · simp only [decide_eq_true hc, eq_self_iff_true, if_true] at h
        by_cases h1 : cap - buf.length ≤ (chunk_header fn kid sc sr isFirst true).length
        · rw [if_pos h1] at h; simp at h
        · rw [if_neg h1] at h
          by_cases h2 : cap <
              (buf ++ chunk_header fn kid sc sr isFirst true).length + 4096
          · rw [if_pos h2] at h; simp at h
          · rw [if_neg h2] at h
            by_cases h3 : cap <
                (buf ++ chunk_header fn kid sc sr isFirst true ++
                  rest.take 4096).length + 2
            · rw [if_pos h3] at h; simp at h
            · rw [if_neg h3] at h
              have hrec := ih (rest.drop 4096) (by simp; omega) false _ out h
              rw [chunkList, dif_neg hr, if_pos hc]
              have hne : (chunkList (rest.drop 4096)).isEmpty = false := by
                rw [List.isEmpty_eq_false]
                exact chunkList_ne_nil _ (by simp; omega)
              rw [wrapChunks, hne]
              simp only [Bool.not_false] at hrec ⊢
              rw [hrec]
              simp [List.append_assoc]
      · simp only [decide_eq_false hc, Bool.false_eq_true, if_false] at h
        by_cases h1 : cap - buf.length ≤ (chunk_header fn kid sc sr isFirst false).length
        · rw [if_pos h1] at h; simp at h
        · rw [if_neg h1] at h
          by_cases h2 : cap <
              (buf ++ chunk_header fn kid sc sr isFirst false).length + rest.length
          · rw [if_pos h2] at h; simp at h
          · rw [if_neg h2] at h
            by_cases h3 : cap <
                (buf ++ chunk_header fn kid sc sr isFirst false ++
                  rest.take rest.length).length + 2
            · rw [if_pos h3] at h; simp at h
            · rw [if_neg h3] at h
              rw [List.drop_length] at h
              rw [encode_chunks] at h
              simp only [dite_eq_ite, if_true, Except.ok.injEq] at h
              subst h
              rw [chunkList, dif_neg hr, if_neg hc]
              rw [wrapChunks]
              simp only [List.isEmpty_nil, Bool.not_true]
              rw [wrapChunks, List.take_length]
              simp [List.append_assoc]

theorem encode_frame_ok_shape (fn kid sc sr cap : Nat) (encoded out : List Char)
    (h : encode_frame fn kid sc sr cap encoded = Except.ok out) :
    out = wrapChunks fn kid sc sr true (chunkList encoded) ++
      (if 0 < fn then animate_cmd kid else ['\r', '\n']) := by
  unfold encode_frame at h
  obtain ⟨res, hres⟩ : ∃ x,
      encode_chunks fn kid sc sr cap encoded true [] = x := ⟨_, rfl⟩
  rw [hres] at h
  cases res with
  | error b => simp at h
  | ok buf =>
    have hb := encode_chunks_ok_shape fn kid sc sr cap encoded.length encoded
      le_rfl true [] out
    simp only at h
    by_cases hf : fn > 0
    · rw [if_pos hf] at h
      by_cases hcap : cap - buf.length ≤ (animate_cmd kid).length
      · rw [if_pos hcap] at h; simp at h
      · rw [if_neg hcap] at h
        simp only [Except.ok.injEq] at h
        subst h
        rw [if_pos hf]
        have := encode_chunks_ok_shape fn kid sc sr cap encoded.length encoded
          le_rfl true [] buf hres
        rw [List.nil_append] at this
        rw [this]
    · rw [if_neg hf] at h
      by_cases hcap : cap < buf.length + 2
      · rw [if_pos hcap] at h; simp at h
      · rw [if_neg hcap] at h
        simp only [Except.ok.injEq] at h
        subst h
        rw [if_neg hf]
        have := encode_chunks_ok_shape fn kid sc sr cap encoded.length encoded
          le_rfl true [] buf hres
        rw [List.nil_append] at this
        rw [this]

theorem render_frame_state (r : Renderer) (encoded : List Char) :
    ((renderer_render_frame r encoded).2.2 = true →
      (renderer_render_frame r encoded).1 = r ∧
      (renderer_render_frame r encoded).2.1 =
        (if r.frame_number = 0 then ("\x1b[H").data else [])) ∧
    ((renderer_render_frame r encoded).2.2 = false →
      (renderer_render_frame r encoded).1 =
        {r with frame_number := r.frame_number + 1} ∧
      ∃ out, encode_frame r.frame_number r.kitty_id r.screen_cols r.screen_rows
          r.protocol_buffer_size encoded = Except.ok out ∧
        (renderer_render_frame r encoded).2.1 =
          (if r.frame_number = 0 then ("\x1b[H").data else []) ++ out) := by
  unfold renderer_render_frame
  obtain ⟨res, hres⟩ : ∃ x, encode_frame r.frame_number r.kitty_id r.screen_cols
      r.screen_rows r.protocol_buffer_size encoded = x := ⟨_, rfl⟩
  rw [hres]
  cases res with
  | error b =>
    exact ⟨fun _ => ⟨rfl, rfl⟩, fun hcon => by simp at hcon⟩
  | ok buf =>
    exact ⟨fun hcon => by simp at hcon, fun _ => ⟨rfl, buf, rfl, rfl⟩⟩

/-- C5: when any capacity validation fails during frame encoding,
renderer_render_frame reports an error, leaves the renderer state
unchanged, and transmits none of the encoded frame: for frames with
index at least 1 nothing at all is written to the output stream; for
frame 0 only the three-byte cursor-home sequence, written
unconditionally before any validation runs, reaches the stream.  (That
frame-0 cursor-home write is the sole deviation from the claim as
originally stated: see the counterexample.) -/
theorem c5_frame_drop (r : Renderer) (encoded : List Char)
    (herr : (renderer_render_frame r encoded).2.2 = true) :
    (renderer_render_frame r encoded).1 = r ∧
    (renderer_render_frame r encoded).2.1 =
      (if r.frame_number = 0 then ("\x1b[H").data else []) :=
  (render_frame_state r encoded).1 herr

theorem c5_witness :
    (renderer_render_frame ⟨24, 80, 7, 1, 4096, 0⟩ ['a']).1 =
      (⟨24, 80, 7, 1, 4096, 0⟩ : Renderer) ∧
    (renderer_render_frame ⟨24, 80, 7, 1, 4096, 0⟩ ['a']).2.1 =
      (if (⟨24, 80, 7, 1, 4096, 0⟩ : Renderer).frame_number = 0
        then ("\x1b[H").data else []) :=
  c5_frame_drop ⟨24, 80, 7, 1, 4096, 0⟩ ['a'] (by
    simp only [renderer_render_frame, encode_frame]
    rw [encode_chunks]
    simp +decide)

/-- A failing capacity validation on frame 0 still writes the cursor-home
sequence to the output stream: the dropped frame's call reports an error
yet its stream output is nonempty, contradicting the claim that nothing
at all is written. -/
theorem c5_counterexample :
    (renderer_render_frame ⟨24, 80, 7, 0, 4096, 0⟩ ['a']).2.2 = true ∧
    (renderer_render_frame ⟨24, 80, 7, 0, 4096, 0⟩ ['a']).2.1 ≠ [] := by
  constructor
  · simp only [renderer_render_frame, encode_frame]
    rw [encode_chunks]
    simp +decide
  · simp only [renderer_render_frame, encode_frame]
    rw [encode_chunks]
    simp +decide

/-- C10: a dropped frame leaves every field of the renderer state
unchanged — in particular the frame counter and the image identifier —
and a call that reaches the final batched write increments the frame
counter by exactly one, leaving every other field unchanged. -/
theorem c10_state_preservation (r : Renderer) (encoded : List Char) :
    ((renderer_render_frame r encoded).2.2 = true →
      (renderer_render_frame r encoded).1 = r) ∧
    ((renderer_render_frame r encoded).2.2 = false →
      (renderer_render_frame r encoded).1 =
        {r with frame_number := r.frame_number + 1}) :=
  ⟨fun h => ((render_frame_state r encoded).1 h).1,
   fun h => ((render_frame_state r encoded).2 h).1⟩

theorem c10_witness :
    (renderer_render_frame ⟨24, 80, 7, 0, 4096, 0⟩ ['b']).1 =
      (⟨24, 80, 7, 0, 4096, 0⟩ : Renderer) ∧
    (renderer_render_frame ⟨24, 80, 7, 0, 4096, 300000⟩ ['b']).1 =
      {(⟨24, 80, 7, 0, 4096, 300000⟩ : Renderer) with frame_number := 0 + 1} :=
  ⟨(c10_state_preservation ⟨24, 80, 7, 0, 4096, 0⟩ ['b']).1 (by
      simp only [renderer_render_frame, encode_frame]
      rw [encode_chunks]
      simp +decide),
   (c10_state_preservation ⟨24, 80, 7, 0, 4096, 300000⟩ ['b']).2 (by
      simp only [renderer_render_frame, encode_frame]
      rw [encode_chunks]
      simp +decide
      rw [encode_chunks]
      simp +decide)⟩

/-- C6: on every successfully encoded frame the base64 payload is split
into consecutive chunks — each exactly 4096 bytes except the last, each
nonempty and at most 4096 bytes — every chunk is individually wrapped in
its protocol header and two-byte escape terminator with the continuation
flag set exactly when further chunks follow, and the chunk boundaries
are a function of the payload length alone, independent of the frame
index. -/
theorem c6_chunking (fn kid sc sr cap : Nat) (payload out : List Char)
    (h : encode_chunks fn kid sc sr cap payload true [] = Except.ok out) :
    out = wrapChunks fn kid sc sr true (chunkList payload) ∧
    (chunkList payload).flatten = payload ∧
    (∀ c ∈ (chunkList payload).dropLast, c.length = 4096) ∧
    (∀ c ∈ chunkList payload, c.length ≤ 4096 ∧ c ≠ []) ∧
    (chunkList payload).map List.length = chunkSizes payload.length := by
  refine ⟨?_, chunkList_flatten payload.length payload le_rfl,
    chunkList_dropLast_lengths payload.length payload le_rfl,
    chunkList_mem_bounds payload.length payload le_rfl,
    chunkList_map_length payload.length payload le_rfl⟩
  have hs := encode_chunks_ok_shape fn kid sc sr cap payload.length payload
    le_rfl true [] out h
  rw [List.nil_append] at hs
  exact hs

theorem c6_witness :
    chunk_header 0 7 80 24 true false ++ ['a', '\x1b', '\\'] =
      wrapChunks 0 7 80 24 true (chunkList ['a']) ∧
    (chunkList ['a']).flatten = ['a'] ∧
    (∀ c ∈ (chunkList ['a']).dropLast, c.length = 4096) ∧
    (∀ c ∈ chunkList ['a'], c.length ≤ 4096 ∧ c ≠ []) ∧
    (chunkList ['a']).map List.length = chunkSizes (['a'] : List Char).length :=
  c6_chunking 0 7 80 24 300000 ['a']
    (chunk_header 0 7 80 24 true false ++ ['a', '\x1b', '\\'])
    (by
      rw [encode_chunks]
      simp +decide
      rw [encode_chunks]
      simp +decide)

theorem string_mk_data (l : List Char) : (String.mk l).data = l := rfl

theorem countNL_append (a b : List Char) :
    countNL (a ++ b) = countNL a + countNL b := List.count_append _ _ _

theorem natDecAux_digits : ∀ (fuel n : Nat), ∀ c ∈ natDecAux fuel n,
    48 ≤ c.toNat ∧ c.toNat ≤ 57 := by
  intro fuel
  induction fuel with
  | zero => intro n c hc; simp [natDecAux] at hc
  | succ f ih =>
    intro n c hc
    simp only [natDecAux] at hc
    by_cases hn : n < 10
    · rw [if_pos hn] at hc
      simp only [List.mem_singleton] at hc
      subst hc
      interval_cases n <;> decide
    · rw [if_neg hn] at hc
      rcases List.mem_append.mp hc with h1 | h1
      · exact ih (n / 10) c h1
      · simp only [List.mem_singleton] at h1
        subst h1
        have hm : n % 10 < 10 := Nat.mod_lt n (by norm_num)
        obtain ⟨m, hm2⟩ : ∃ m, n % 10 = m := ⟨_, rfl⟩
        rw [hm2]
        rw [hm2] at hm
        interval_cases m <;> decide

theorem natDec_no_nl (n : Nat) : (natDec n).count '\n' = 0 := by
  rw [List.count_eq_zero]
  intro hmem
  have h := natDecAux_digits (n + 1) n _ hmem
  have h10 : ('\n').toNat = 10 := by decide
  rw [h10] at h
  omega

theorem chunk_header_no_nl (fn kid sc sr : Nat) (isFirst more : Bool) :
    (chunk_header fn kid sc sr isFirst more).count '\n' = 0 := by
  have h1 := natDec_no_nl kid
  have h2 := natDec_no_nl sc
  have h3 := natDec_no_nl sr
  cases isFirst <;> cases more <;> by_cases hf : fn = 0 <;>
    simp +decide [chunk_header, hf, String.data_append, List.count_append,
      string_mk_data, h1, h2, h3]

theorem animate_no_nl (kid : Nat) : (animate_cmd kid).count '\n' = 0 := by
  have h1 := natDec_no_nl kid
  simp +decide [animate_cmd, String.data_append, List.count_append,
    string_mk_data, h1]

theorem wrapChunks_no_nl (fn kid sc sr : Nat) :
    ∀ (cs : List (List Char)) (isFirst : Bool),
      (∀ c ∈ cs, ('\n') ∉ c) →
      (wrapChunks fn kid sc sr isFirst cs).count '\n' = 0 := by
  intro cs
  induction cs with
  | nil => intro isFirst h; rfl
  | cons c rest ih =>
    intro isFirst h
    simp only [wrapChunks, List.count_append]
    rw [chunk_header_no_nl,
      ih false (fun x hx => h x (List.mem_cons_of_mem c hx))]
    have hc : c.count '\n' = 0 :=
      List.count_eq_zero.mpr (h c (List.mem_cons_self c rest))
    rw [hc]
    decide

theorem chunk_header_create (kid sc sr : Nat) (more : Bool) :
    chunk_header 0 kid sc sr true more =
      createVerb kid ++ (",f=24,s=320,v=200,q=2,c=" ++ String.mk (natDec sc) ++
        ",r=" ++ String.mk (natDec sr) ++ ",m=" ++
        (if more then "1" else "0") ++ ";").data := by
  simp [chunk_header, createVerb, String.data_append, string_mk_data,
    List.append_assoc]

theorem chunk_header_update (fn kid sc sr : Nat) (hf : fn ≠ 0) (more : Bool) :
    chunk_header fn kid sc sr true more =
      updateVerb kid ++ (",f=24,x=0,y=0,s=320,v=200,m=" ++
        (if more then "1" else "0") ++ ";").data := by
  simp [chunk_header, updateVerb, hf, String.data_append, string_mk_data,
    List.append_assoc]

theorem render_frame_nl (r : Renderer) (p : List Char) (hp : ('\n') ∉ p) :
    countNL (renderer_render_frame r p).2.1 =
      if (renderer_render_frame r p).2.2 = false ∧ r.frame_number = 0
        then 1 else 0 := by
  obtain ⟨e, he⟩ : ∃ e, (renderer_render_frame r p).2.2 = e := ⟨_, rfl⟩
  rw [he]
  cases e with
  | true =>
    obtain ⟨_, hout⟩ := (render_frame_state r p).1 he
    rw [hout]
    by_cases hf : r.frame_number = 0 <;> simp +decide [hf, countNL]
  | false =>
    obtain ⟨_, out, henc, hout⟩ := (render_frame_state r p).2 he
    rw [hout]
    have hshape := encode_frame_ok_shape _ _ _ _ _ _ _ henc
    subst hshape
    have hwrap : (wrapChunks r.frame_number r.kitty_id r.screen_cols
        r.screen_rows true (chunkList p)).count '\n' = 0 := by
      apply wrapChunks_no_nl
      intro c hc hmem
      apply hp
      have hfl := chunkList_flatten p.length p le_rfl
      rw [← hfl]
      exact List.mem_flatten.mpr ⟨c, hc, hmem⟩
    by_cases hf : r.frame_number = 0
    · rw [hf] at hwrap
      simp +decide [hf, countNL, List.count_append, hwrap]
    · simp +decide [hf, countNL, List.count_append, hwrap, animate_no_nl,
        Nat.pos_of_ne_zero hf]

theorem run_render_fn_le : ∀ (ps : List (List Char)) (r : Renderer),
    r.frame_number ≤ (run_render r ps).1.frame_number := by
  intro ps
  induction ps with
  | nil => intro r; exact le_rfl
  | cons p ps ih =>
    intro r
    simp only [run_render]
    obtain ⟨e, he⟩ : ∃ e, (renderer_render_frame r p).2.2 = e := ⟨_, rfl⟩
    cases e with
    | true =>
      have h1 := ((render_frame_state r p).1 he).1
      calc r.frame_number = (renderer_render_frame r p).1.frame_number := by
            rw [h1]
        _ ≤ _ := ih _
    | false =>
      have h1 := ((render_frame_state r p).2 he).1
      have h2 : (renderer_render_frame r p).1.frame_number =
          r.frame_number + 1 := by rw [h1]
      calc r.frame_number ≤ (renderer_render_frame r p).1.frame_number := by
            omega
        _ ≤ _ := ih _

theorem run_render_nl : ∀ (ps : List (List Char)) (r : Renderer),
    (∀ p ∈ ps, ('\n') ∉ p) →
      countNL (run_render r ps).2 =
        if r.frame_number = 0 ∧ (run_render r ps).1.frame_number ≠ 0
          then 1 else 0 := by
  intro ps
  induction ps with
  | nil =>
    intro r h
    simp [run_render, countNL]
  | cons p ps ih =>
    intro r h
    simp only [run_render]
    rw [countNL_append, render_frame_nl r p (h p (List.mem_cons_self p ps)),
      ih _ (fun q hq => h q (List.mem_cons_of_mem p hq))]
    obtain ⟨e, he⟩ : ∃ e, (renderer_render_frame r p).2.2 = e := ⟨_, rfl⟩
    rw [he]
    cases e with
    | true =>
      have hst := ((render_frame_state r p).1 he).1
      simp only [hst]
      simp
    | false =>
      have hst := ((render_frame_state r p).2 he).1
      simp only [hst]
      by_cases hf : r.frame_number = 0
      · have hle := run_render_fn_le ps {r with frame_number := r.frame_number + 1}
        have hpr : ({r with frame_number := r.frame_number + 1} : Renderer).frame_number =
            r.frame_number + 1 := rfl
        have hfin : (run_render {r with frame_number := r.frame_number + 1} ps).1.frame_number ≠ 0 := by
          omega
        simp only [hf, Nat.zero_add] at hfin
        simp [hf, hfin]
      · simp [hf]

theorem wrap_create_head (kid sc sr : Nat) (c0 : List Char)
    (cs : List (List Char)) :
    ∃ t, wrapChunks 0 kid sc sr true (c0 :: cs) = createVerb kid ++ t := by
  simp only [wrapChunks]
  rw [chunk_header_create]
  refine ⟨(",f=24,s=320,v=200,q=2,c=" ++ String.mk (natDec sc) ++ ",r=" ++
    String.mk (natDec sr) ++ ",m=" ++ (if !cs.isEmpty then "1" else "0") ++
    ";").data ++ (c0 ++ (['\x1b', '\\'] ++
    wrapChunks 0 kid sc sr false cs)), ?_⟩
  simp [List.append_assoc]

theorem wrap_update_head (fn kid sc sr : Nat) (hf : fn ≠ 0) (c0 : List Char)
    (cs : List (List Char)) :
    ∃ t, wrapChunks fn kid sc sr true (c0 :: cs) = updateVerb kid ++ t := by
  simp only [wrapChunks]
  rw [chunk_header_update fn kid sc sr hf]
  refine ⟨(",f=24,x=0,y=0,s=320,v=200,m=" ++
    (if !cs.isEmpty then "1" else "0") ++ ";").data ++
    (c0 ++ (['\x1b', '\\'] ++ wrapChunks fn kid sc sr false cs)), ?_⟩
  simp [List.append_assoc]

/-- C7: for every successful render of a nonempty newline-free payload,
the frame-0 stream output opens with the cursor-home bytes followed by
the create-image verb carrying the renderer's image identifier and ends
with the carriage-return/newline pair, containing exactly one newline;
the output of every frame with index at least 1 opens with the
update-image verb carrying the same identifier, ends with the animate
command, and contains no newline at all; and over a whole run started at
frame 0 the stream carries a newline exactly once, exactly when some
frame-0 render succeeded. -/
theorem c7_frame_verbs (r : Renderer) (encoded : List Char)
    (ps : List (List Char))
    (hne : encoded ≠ [])
    (hok : (renderer_render_frame r encoded).2.2 = false)
    (hnl : ('\n') ∉ encoded)
    (hps : ∀ p ∈ ps, ('\n') ∉ p) :
    (r.frame_number = 0 →
      (∃ t, (renderer_render_frame r encoded).2.1 =
        ("\x1b[H").data ++ createVerb r.kitty_id ++ t) ∧
      (∃ u, (renderer_render_frame r encoded).2.1 = u ++ ['\r', '\n']) ∧
      countNL (renderer_render_frame r encoded).2.1 = 1) ∧
    (r.frame_number ≠ 0 →
      (∃ t, (renderer_render_frame r encoded).2.1 =
        updateVerb r.kitty_id ++ t) ∧
      (∃ u, (renderer_render_frame r encoded).2.1 =
        u ++ animate_cmd r.kitty_id) ∧
      countNL (renderer_render_frame r encoded).2.1 = 0) ∧
    (r.frame_number = 0 →
      countNL (run_render r ps).2 =
        if (run_render r ps).1.frame_number = 0 then 0 else 1) := by
  obtain ⟨_, out, henc, hout⟩ := (render_frame_state r encoded).2 hok
  have hshape := encode_frame_ok_shape _ _ _ _ _ _ _ henc
  subst hshape
  obtain ⟨c0, cs, hcl⟩ := List.exists_cons_of_ne_nil
    (chunkList_ne_nil encoded hne)
  have hnl1 := render_frame_nl r encoded hnl
  rw [hok] at hnl1
  refine ⟨fun hf => ⟨?_, ?_, ?_⟩, fun hf => ⟨?_, ?_, ?_⟩, fun hf => ?_⟩
  · obtain ⟨t, ht⟩ := wrap_create_head r.kitty_id r.screen_cols
      r.screen_rows c0 cs
    refine ⟨t ++ ['\r', '\n'], ?_⟩
    rw [hout, hcl, hf]
    simp +decide [ht, List.append_assoc]
  · refine ⟨("\x1b[H").data ++ wrapChunks 0 r.kitty_id r.screen_cols
      r.screen_rows true (c0 :: cs), ?_⟩
    rw [hout, hcl, hf]
    simp +decide [List.append_assoc]
  · rw [hnl1, hf]
    simp
  · obtain ⟨t, ht⟩ := wrap_update_head r.frame_number r.kitty_id
      r.screen_cols r.screen_rows hf c0 cs
    refine ⟨t ++ animate_cmd r.kitty_id, ?_⟩
    rw [hout, hcl]
    simp [hf, Nat.pos_of_ne_zero hf, ht, List.append_assoc]
  · refine ⟨wrapChunks r.frame_number r.kitty_id r.screen_cols
      r.screen_rows true (c0 :: cs), ?_⟩
    rw [hout, hcl]
    simp [hf, Nat.pos_of_ne_zero hf, List.append_assoc]
  · rw [hnl1]
    simp [hf]
  · rw [run_render_nl ps r hps, hf]
    by_cases hz : (run_render r ps).1.frame_number = 0 <;> simp [hz]

theorem c7_witness :
    ((⟨24, 80, 7, 0, 4096, 300000⟩ : Renderer).frame_number = 0 →
      (∃ t, (renderer_render_frame ⟨24, 80, 7, 0, 4096, 300000⟩ ['a']).2.1 =
        ("\x1b[H").data ++
          createVerb (⟨24, 80, 7, 0, 4096, 300000⟩ : Renderer).kitty_id ++ t) ∧
      (∃ u, (renderer_render_frame ⟨24, 80, 7, 0, 4096, 300000⟩ ['a']).2.1 =
        u ++ ['\r', '\n']) ∧
      countNL (renderer_render_frame ⟨24, 80, 7, 0, 4096, 300000⟩ ['a']).2.1 = 1) ∧
    ((⟨24, 80, 7, 0, 4096, 300000⟩ : Renderer).frame_number ≠ 0 →
      (∃ t, (renderer_render_frame ⟨24, 80, 7, 0, 4096, 300000⟩ ['a']).2.1 =
        updateVerb (⟨24, 80, 7, 0, 4096, 300000⟩ : Renderer).kitty_id ++ t) ∧
      (∃ u, (renderer_render_frame ⟨24, 80, 7, 0, 4096, 300000⟩ ['a']).2.1 =
        u ++ animate_cmd (⟨24, 80, 7, 0, 4096, 300000⟩ : Renderer).kitty_id) ∧
      countNL (renderer_render_frame ⟨24, 80, 7, 0, 4096, 300000⟩ ['a']).2.1 = 0) ∧
    ((⟨24, 80, 7, 0, 4096, 300000⟩ : Renderer).frame_number = 0 →
      countNL (run_render ⟨24, 80, 7, 0, 4096, 300000⟩ []).2 =
        if (run_render ⟨24, 80, 7, 0, 4096, 300000⟩ []).1.frame_number = 0
          then 0 else 1) :=
  c7_frame_verbs ⟨24, 80, 7, 0, 4096, 300000⟩ ['a'] []
    (by decide)
    (by
      simp only [renderer_render_frame, encode_frame]
      rw [encode_chunks]
      simp +decide
      rw [encode_chunks]
      simp +decide)
    (by decide)
    (by simp)
